import Mathlib

/-!
Shallow embedding of the metacritic_fetcher scripts
(`scripts/fix-missing-critics.ts`, `scripts/export-movie-reviews.ts` and the
unnamed `part_000` variant of the export script), together with proofs about
the embedded definitions.

Conventions used throughout:
* JS strings are modelled as Lean `String` / `List Char`.
* JS `number` years are modelled as `Int`, scores as `Nat`.
* The two Unicode-table primitives used by the scripts —
  `String.prototype.toLowerCase` and `String.prototype.normalize("NFKD")` —
  cannot be transcribed (they are defined by the Unicode tables), so the
  definitions that use them take them as explicit function parameters
  `lower nfkd : List Char → List Char`; theorems that need facts about them
  state those facts as hypotheses that the real Unicode functions satisfy.
* Fallible browser operations are modelled as `Except Unit` / `Option`
  results supplied by a provider record; a `.error ()` is a thrown
  navigation/transport fault, which the scripts always catch locally.
-/

/-! ### Character helpers -/

/-- ASCII lower-casing of a single character (the case folding applied by a
case-insensitive JS regex over an ASCII pattern). -/
def asciiLower (c : Char) : Char :=
  if 'A' ≤ c ∧ c ≤ 'Z' then Char.ofNat (c.toNat + 32) else c

/-- `[a-z0-9]`: the characters kept by the `[^a-z0-9]+` replacement steps. -/
def isLowerAlnum (c : Char) : Bool :=
  ('a' ≤ c && c ≤ 'z') || ('0' ≤ c && c ≤ '9')

/-- The JS whitespace class `\s` (restricted to its common members; every
character this model ever feeds to it is ASCII). -/
def isJsWhitespace (c : Char) : Bool :=
  c = ' ' || c = '\t' || c = '\n' || c = '\r' || c = '\x0b' || c = '\x0c' || c = ' '

/-- `[̀-ͯ]`: combining diacritical marks removed after NFKD. -/
def isCombiningMark (c : Char) : Bool :=
  0x300 ≤ c.toNat && c.toNat ≤ 0x36F

/-! ### Run collapsing: the `replace(/X+/g, r)` steps

`collapseRuns p rep l` replaces every maximal run of characters satisfying
`p` by the single character `rep`, exactly like `replace(/[^a-z0-9]+/g, " ")`
(`p` = not alphanumeric, `rep` = space), `replace(/\s+/g, " ")` and
`replace(/[-]+/g, "-")`. -/

def collapseRunsAux (p : Char → Bool) (rep : Char) : Bool → List Char → List Char
  | _, [] => []
  | inRun, c :: cs =>
    if p c then
      if inRun then collapseRunsAux p rep true cs
      else rep :: collapseRunsAux p rep true cs
    else c :: collapseRunsAux p rep false cs

def collapseRuns (p : Char → Bool) (rep : Char) (l : List Char) : List Char :=
  collapseRunsAux p rep false l

/-- `noAdjacent p l` holds when no two adjacent characters of `l` both
satisfy `p`. -/
def noAdjacent (p : Char → Bool) : List Char → Bool
  | [] => true
  | [_] => true
  | a :: b :: rest => (!(p a && p b)) && noAdjacent p (b :: rest)

/-! ### Trimming: `String.prototype.trim` -/

/-- Drop the longest suffix of characters satisfying `p`. -/
def dropTrailing (p : Char → Bool) : List Char → List Char
  | [] => []
  | c :: cs =>
    match dropTrailing p cs with
    | [] => if p c then [] else [c]
    | d :: ds => c :: d :: ds

/-- `trim()`: drop leading and trailing whitespace. -/
def trimChars (l : List Char) : List Char :=
  dropTrailing isJsWhitespace (l.dropWhile isJsWhitespace)

/-! ### HTML entity decoding: `decodeHtmlEntities`

The source applies eight global, case-insensitive, literal-pattern
`replace` calls in sequence.  Each call is a single left-to-right pass that
never rescans its own output, which is what `replaceCI` implements (with
explicit fuel to make the recursion structural: a successful match consumes
at least one character, so `fuel = length` always suffices). -/

/-- Case-insensitive literal prefix match (the patterns are ASCII):
returns the remainder of `s` after the pattern. -/
def stripCIPat : List Char → List Char → Option (List Char)
  | [], s => some s
  | _ :: _, [] => none
  | p :: ps, c :: cs => if asciiLower c = p then stripCIPat ps cs else none

/-- Try each alternative of the pattern in order (regex alternation). -/
def matchAnyCI : List (List Char) → List Char → Option (List Char)
  | [], _ => none
  | p :: ps, s =>
    match stripCIPat p s with
    | some rest => some rest
    | none => matchAnyCI ps s

def replaceCIAux (pats : List (List Char)) (rep : List Char) : Nat → List Char → List Char
  | _, [] => []
  | 0, s => s
  | fuel + 1, c :: cs =>
    match matchAnyCI pats (c :: cs) with
    | some rest => rep ++ replaceCIAux pats rep fuel rest
    | none => c :: replaceCIAux pats rep fuel cs

/-- One `replace(/p1|p2|.../gi, rep)` pass. -/
def replaceCI (pats : List (List Char)) (rep : List Char) (s : List Char) : List Char :=
  replaceCIAux pats rep s.length s

/-- `decodeHtmlEntities` from fix-missing-critics.ts: the eight sequential
passes, in source order. -/
def decodeHtmlEntities (s : List Char) : List Char :=
  let s1 := replaceCI ["&#x27;".data, "&#39;".data, "&apos;".data] "'".data s
  let s2 := replaceCI ["&quot;".data] "\"".data s1
  let s3 := replaceCI ["&amp;".data] "&".data s2
  let s4 := replaceCI ["&nbsp;".data] " ".data s3
  let s5 := replaceCI ["&rsquo;".data] "’".data s4
  let s6 := replaceCI ["&lsquo;".data] "‘".data s5
  let s7 := replaceCI ["&ldquo;".data] "“".data s6
  replaceCI ["&rdquo;".data] "”".data s7

def decodeHtmlEntitiesS (s : String) : String :=
  String.mk (decodeHtmlEntities s.data)

/-! ### `normalizeTitle` (fix-missing-critics.ts lines 92–101)

```
function normalizeTitle(s) {
  const d = decodeHtmlEntities(s);
  return d.toLowerCase().normalize("NFKD")
    .replace(/[̀-ͯ]/g, "")
    .replace(/[^a-z0-9]+/g, " ")
    .trim()
    .replace(/\s+/g, " ");
}
```
`lower` models `toLowerCase`, `nfkd` models `normalize("NFKD")`. -/

def normalizeTitleL (lower nfkd : List Char → List Char) (s : List Char) : List Char :=
  collapseRuns isJsWhitespace ' '
    (trimChars
      (collapseRuns (fun c => !isLowerAlnum c) ' '
        ((nfkd (lower (decodeHtmlEntities s))).filter (fun c => !isCombiningMark c))))

def normalizeTitle (lower nfkd : List Char → List Char) (s : String) : String :=
  String.mk (normalizeTitleL lower nfkd s.data)

/-! ### `makeSlugCore` / `makeSlugVariants` (fix-missing-critics.ts lines 221–245) -/

/-- `replace(/&/g, " and ")`. -/
def ampToAnd (l : List Char) : List Char :=
  l.flatMap (fun c => if c = '&' then " and ".data else [c])

/-- `replace(/['’`]+/g, "")`: removing every such character (the replacement
is empty, so collapsing runs first makes no difference). -/
def isApostrophe (c : Char) : Bool :=
  c = '\'' || c = '’' || c = '\x60'

/-- `replace(/^-|-$/g, "")`: the anchored alternation removes at most one
leading and one trailing hyphen. -/
def stripEdgeHyphens (l : List Char) : List Char :=
  let l1 := match l with
    | '-' :: rest => rest
    | other => other
  match l1.getLast? with
  | some '-' => l1.dropLast
  | _ => l1

def makeSlugCoreL (lower nfkd : List Char → List Char) (s : List Char) : List Char :=
  stripEdgeHyphens
    (collapseRuns (fun c => c = '-') '-'
      (collapseRuns (fun c => !isLowerAlnum c) '-'
        ((ampToAnd
          ((nfkd (lower (decodeHtmlEntities s))).filter (fun c => !isCombiningMark c))).filter
            (fun c => !isApostrophe c))))

def makeSlugCore (lower nfkd : List Char → List Char) (s : String) : String :=
  String.mk (makeSlugCoreL lower nfkd s.data)

/-- The `ampersandish` variant of makeSlugVariants: same pipeline but the
collapse step keeps `&` (`[^a-z0-9&]+`) and there is no `&` → " and "
replacement. -/
def ampersandishSlug (lower nfkd : List Char → List Char) (s : String) : String :=
  String.mk
    (stripEdgeHyphens
      (collapseRuns (fun c => c = '-') '-'
        (collapseRuns (fun c => !(isLowerAlnum c || c = '&')) '-'
          (((nfkd (lower (decodeHtmlEntities s.data))).filter
              (fun c => !isCombiningMark c)).filter (fun c => !isApostrophe c)))))

/-- `base.replace(/^(the|a|an)[-]/, "")` (hyphen bracketed here only to keep
this comment well formed); the regex engine tries the
alternatives left to right with backtracking, which on these literals is
equivalent to testing the prefixes "the-", "a-", "an-" in that order. -/
def dropLeadingArticle (s : String) : String :=
  if "the-".data.isPrefixOf s.data then String.mk (s.data.drop 4)
  else if "a-".data.isPrefixOf s.data then String.mk (s.data.drop 2)
  else if "an-".data.isPrefixOf s.data then String.mk (s.data.drop 3)
  else s

/-- Insertion into a JS `Set` (insertion-ordered, first occurrence wins). -/
def insertUniq (l : List String) (s : String) : List String :=
  if l.contains s then l else l ++ [s]

/-- `makeSlugVariants(title, year)`: `Array.from(set).filter(Boolean)`
keeps insertion order and drops empty strings. -/
def makeSlugVariants (lower nfkd : List Char → List Char) (title : String) (year : Int) :
    List String :=
  let base := makeSlugCore lower nfkd title
  let v1 := insertUniq (insertUniq [] base) (base ++ "-" ++ toString year)
  let dropped := dropLeadingArticle base
  let v2 :=
    if dropped ≠ base then insertUniq (insertUniq v1 dropped) (dropped ++ "-" ++ toString year)
    else v1
  let amp := ampersandishSlug lower nfkd title
  let v3 := insertUniq (insertUniq v2 amp) (amp ++ "-" ++ toString year)
  v3.filter (fun s => s ≠ "")

/-! ## Harvest engine: the three `getAllCriticReviewsViaDom` variants

The DOM is abstracted as a feed function `feed : Nat → List γ`: the list of
review cards (already run through the per-card extractors, which are
collaborator selector code) visible after `r` scroll/reveal actions.  Each
loop iteration performs one reveal before its harvest pass; the "one more
deep pass" taken on a zero-progress iteration performs a second reveal.
`totalAt r` is the optional "Showing N Critic Reviews" marker readable after
`r` reveals. -/

/-- `publication.toLowerCase()` — ASCII model of JS `toLowerCase` (the
case-mapping table does not matter for any theorem below). -/
def jsLower (s : String) : String :=
  String.mk (s.data.map Char.toLower)

/-- `.trim()`. -/
def jsTrim (s : String) : String :=
  String.mk (trimChars s.data)

/-- A critic-review card as extracted by the export script / part_000:
publication, author and an optional 0–100 score. -/
structure CriticCard where
  publication : String
  author : String
  score : Option Nat
deriving Repr, DecidableEq

/-- A card as extracted by fix-missing-critics.ts, which also keeps a quote
(used only in the dedup key). -/
structure CriticCardQ where
  publication : String
  author : String
  score : Option Nat
  quote : String
deriving Repr, DecidableEq

/-- Export script: a card is pushed only `if (publication && score != null)`. -/
def validCardE (c : CriticCard) : Bool :=
  c.publication ≠ "" && c.score.isSome

/-- Export script dedup key:
`publication.toLowerCase().trim()|author.toLowerCase().trim()|score`
(the score is always non-null when the key is used). -/
def dedupKeyE (c : CriticCard) : String :=
  jsTrim (jsLower c.publication) ++ "|" ++ jsTrim (jsLower c.author) ++ "|" ++
    (match c.score with | some n => toString n | none => "null")

/-- fix-missing-critics.ts: a card is pushed `if (publication || author || quote)`. -/
def validCardF (c : CriticCardQ) : Bool :=
  c.publication ≠ "" || c.author ≠ "" || c.quote ≠ ""

/-- fix-missing-critics.ts dedup key:
`pub.toLowerCase().trim()|author.toLowerCase().trim()|quote.slice(0,120).toLowerCase().trim()|score ?? ""`. -/
def dedupKeyF (c : CriticCardQ) : String :=
  jsTrim (jsLower c.publication) ++ "|" ++ jsTrim (jsLower c.author) ++ "|" ++
    jsTrim (jsLower (String.mk (c.quote.data.take 120))) ++ "|" ++
    (match c.score with | some n => toString n | none => "")

/-- One `harvest()` pass: walk the visible cards in order and merge each
valid, not-yet-seen card into `(seen, rows)`. -/
def harvestPass (valid : γ → Bool) (key : γ → String) :
    List γ → List String × List γ → List String × List γ
  | [], st => st
  | c :: cs, (seen, rows) =>
    if valid c then
      if key c ∈ seen then harvestPass valid key cs (seen, rows)
      else harvestPass valid key cs (seen ++ [key c], rows ++ [c])
    else harvestPass valid key cs (seen, rows)

/-- Why a harvest loop stopped.  The source returns from distinct exit
points; this tags which one fired (the spec's `terminationReason`). -/
inductive HarvestExit where
  | knownTotalReached
  | stagnated
  | stepCapReached
deriving Repr, DecidableEq

/-- `total != null && rows.length >= total`. -/
def totalDone (total : Option Nat) (n : Nat) : Bool :=
  match total with
  | some t => t ≤ n
  | none => false

/-- Loop state shared by the three variants (`steps` is unused by the
fix-missing-critics variant, which has no step counter). -/
structure HarvestState (γ : Type) where
  revealed : Nat
  steps : Nat
  stagnant : Nat
  total : Option Nat
  seen : List String
  rows : List γ
deriving Repr

/-- export-movie-reviews.ts constants. -/
def MAX_REVIEW_STEPS : Nat := 60

def MAX_STAGNANT_ITERS_EXPORT : Nat := 8

/-- fix-missing-critics.ts constant. -/
def MAX_STAGNANT_ITERS_FIX : Nat := 6

/-- The export-movie-reviews.ts loop (lines 510–553).  `fuel` is a
step-indexing device: `none` means the loop is still running after `fuel`
iterations.  One iteration: head condition
`(total == null || rows.length < total) && steps++ < MAX_REVIEW_STEPS`,
then scroll+harvest, re-read of the total while unknown, mid-iteration
known-total break, and on zero new uniques a second deep scroll+harvest
followed by the stagnation break (the deep pass does not reset the
counter). -/
def exportGo (maxSteps maxStag : Nat) (feed : Nat → List CriticCard)
    (totalAt : Nat → Option Nat) (st : HarvestState CriticCard) :
    Nat → Option (HarvestState CriticCard × HarvestExit)
  | 0 => none
  | fuel + 1 =>
    if totalDone st.total st.rows.length then some (st, .knownTotalReached)
    else if maxSteps ≤ st.steps then some (st, .stepCapReached)
    else
      let before := st.rows.length
      let r1 := st.revealed + 1
      let h1 := harvestPass validCardE dedupKeyE (feed r1) (st.seen, st.rows)
      let total1 := match st.total with
        | none => totalAt r1
        | some t => some t
      let st1 : HarvestState CriticCard :=
        { revealed := r1, steps := st.steps + 1, stagnant := st.stagnant,
          total := total1, seen := h1.1, rows := h1.2 }
      if totalDone total1 h1.2.length then some (st1, .knownTotalReached)
      else if before < h1.2.length then
        exportGo maxSteps maxStag feed totalAt { st1 with stagnant := 0 } fuel
      else
        let stag1 := st.stagnant + 1
        let h2 := harvestPass validCardE dedupKeyE (feed (r1 + 1)) (h1.1, h1.2)
        let st2 : HarvestState CriticCard :=
          { st1 with revealed := r1 + 1, stagnant := stag1, seen := h2.1, rows := h2.2 }
        if maxStag ≤ stag1 then some (st2, .stagnated)
        else exportGo maxSteps maxStag feed totalAt st2 fuel

/-- export-movie-reviews.ts `getAllCriticReviewsViaDom` (lines 436–556):
initial harvest at reveal 0, initial total read, early return when the
total is already met, then the loop.  The fuel `maxSteps + 1` is enough for
the loop to finish on its own (proved below). -/
def getAllCriticReviewsViaDomExport (maxSteps maxStag : Nat) (feed : Nat → List CriticCard)
    (totalAt : Nat → Option Nat) : Option (HarvestState CriticCard × HarvestExit) :=
  let h0 := harvestPass validCardE dedupKeyE (feed 0) ([], [])
  let t0 := totalAt 0
  let st0 : HarvestState CriticCard :=
    { revealed := 0, steps := 0, stagnant := 0, total := t0, seen := h0.1, rows := h0.2 }
  if totalDone t0 h0.2.length then some (st0, .knownTotalReached)
  else exportGo maxSteps maxStag feed totalAt st0 (maxSteps + 1)

/-- The part_000 loop (lines 470–523).  Same head and main pass as the
export script, but a zero-progress iteration looks for a "Load more"-style
button instead of deep-scrolling: if one is visible it is clicked, a
harvest follows and the stagnation counter is reset to zero
unconditionally; only then is the stagnation break checked.
`hasBtn r` models whether such a button is visible after `r` reveals. -/
def part000Go (maxSteps maxStag : Nat) (feed : Nat → List CriticCard)
    (totalAt : Nat → Option Nat) (hasBtn : Nat → Bool) (st : HarvestState CriticCard) :
    Nat → Option (HarvestState CriticCard × HarvestExit)
  | 0 => none
  | fuel + 1 =>
    if totalDone st.total st.rows.length then some (st, .knownTotalReached)
    else if maxSteps ≤ st.steps then some (st, .stepCapReached)
    else
      let before := st.rows.length
      let r1 := st.revealed + 1
      let h1 := harvestPass validCardE dedupKeyE (feed r1) (st.seen, st.rows)
      let total1 := match st.total with
        | none => totalAt r1
        | some t => some t
      let st1 : HarvestState CriticCard :=
        { revealed := r1, steps := st.steps + 1, stagnant := st.stagnant,
          total := total1, seen := h1.1, rows := h1.2 }
      if totalDone total1 h1.2.length then some (st1, .knownTotalReached)
      else if before < h1.2.length then
        part000Go maxSteps maxStag feed totalAt hasBtn { st1 with stagnant := 0 } fuel
      else
        let stag1 := st.stagnant + 1
        if hasBtn r1 then
          let h2 := harvestPass validCardE dedupKeyE (feed (r1 + 1)) (h1.1, h1.2)
          let st2 : HarvestState CriticCard :=
            { st1 with revealed := r1 + 1, stagnant := 0, seen := h2.1, rows := h2.2 }
          if maxStag ≤ (0 : Nat) then some (st2, .stagnated)
          else part000Go maxSteps maxStag feed totalAt hasBtn st2 fuel
        else
          let st2 : HarvestState CriticCard := { st1 with stagnant := stag1 }
          if maxStag ≤ stag1 then some (st2, .stagnated)
          else part000Go maxSteps maxStag feed totalAt hasBtn st2 fuel

/-- part_000 `getAllCriticReviewsViaDom` (lines 396–526). -/
def getAllCriticReviewsViaDomPart000 (maxSteps maxStag : Nat) (feed : Nat → List CriticCard)
    (totalAt : Nat → Option Nat) (hasBtn : Nat → Bool) :
    Option (HarvestState CriticCard × HarvestExit) :=
  let h0 := harvestPass validCardE dedupKeyE (feed 0) ([], [])
  let t0 := totalAt 0
  let st0 : HarvestState CriticCard :=
    { revealed := 0, steps := 0, stagnant := 0, total := t0, seen := h0.1, rows := h0.2 }
  if totalDone t0 h0.2.length then some (st0, .knownTotalReached)
  else part000Go maxSteps maxStag feed totalAt hasBtn st0 (maxSteps + 1)

/-- The fix-missing-critics.ts loop (lines 592–622): `while (true)` with no
step cap and no head condition; the total is read once before the loop and
never re-read; a zero-progress main pass takes a deep pass and, unlike the
export script, a deep pass that finds new uniques resets the stagnation
counter.  `none` means the loop has not exited within `fuel` iterations. -/
def fixGo (maxStag : Nat) (feed : Nat → List CriticCardQ) (st : HarvestState CriticCardQ) :
    Nat → Option (HarvestState CriticCardQ × HarvestExit)
  | 0 => none
  | fuel + 1 =>
    let before := st.rows.length
    let r1 := st.revealed + 1
    let h1 := harvestPass validCardF dedupKeyF (feed r1) (st.seen, st.rows)
    let st1 : HarvestState CriticCardQ :=
      { st with revealed := r1, seen := h1.1, rows := h1.2 }
    if totalDone st.total h1.2.length then some (st1, .knownTotalReached)
    else if h1.2.length = before then
      let stag1 := st.stagnant + 1
      let h2 := harvestPass validCardF dedupKeyF (feed (r1 + 1)) (h1.1, h1.2)
      let st2 : HarvestState CriticCardQ :=
        { st1 with revealed := r1 + 1, stagnant := stag1, seen := h2.1, rows := h2.2 }
      if h2.2.length = before then
        if maxStag ≤ stag1 then some (st2, .stagnated)
        else fixGo maxStag feed st2 fuel
      else fixGo maxStag feed { st2 with stagnant := 0 } fuel
    else fixGo maxStag feed { st1 with stagnant := 0 } fuel

/-- fix-missing-critics.ts `getAllCriticReviewsViaDom` (lines 508–625):
initial harvest, one-time total read, early return when the total is
already met, then the uncapped loop, explored up to `fuel` iterations. -/
def getAllCriticReviewsViaDomFix (maxStag : Nat) (feed : Nat → List CriticCardQ)
    (total : Option Nat) (fuel : Nat) : Option (HarvestState CriticCardQ × HarvestExit) :=
  let h0 := harvestPass validCardF dedupKeyF (feed 0) ([], [])
  let st0 : HarvestState CriticCardQ :=
    { revealed := 0, steps := 0, stagnant := 0, total := total, seen := h0.1, rows := h0.2 }
  if totalDone total h0.2.length then some (st0, .knownTotalReached)
  else fixGo maxStag feed st0 fuel

/-- Termination of the fix-missing-critics harvest loop on a given
provider behaviour: some finite number of loop iterations suffices. -/
def fixHarvestTerminates (maxStag : Nat) (feed : Nat → List CriticCardQ)
    (total : Option Nat) : Prop :=
  ∃ fuel out, getAllCriticReviewsViaDomFix maxStag feed total fuel = some out

/-! ## Entity resolver: `findMovieUrlForTitleYearInternal` and its strategies
(fix-missing-critics.ts lines 377–492)

The browsing substrate is abstracted as a provider of extracted page
content.  `.error ()` models a navigation/transport fault (a thrown
`goto`); inner text/attribute extraction already degrades to `""` / `null`
at the source (`safeText`, `.catch(() => null)`), so page fields carry the
extracted values directly. -/

/-- An entry scanned on a year-listing page: `safeText` of its title node
and the optional `href` of its link. -/
structure ListingEntryM where
  text : String
  href : Option String
deriving Repr, DecidableEq

/-- A year-listing page: its HTTP status, the count checked by
`iterateYearPages` (selector `[data-testid="product-list-item"] a, a.title`),
the product-card entries and the generic `tr, li` row entries. -/
structure ListingPageM where
  status : Nat
  linkCount : Nat
  cards : List ListingEntryM
  rows2 : List ListingEntryM
deriving Repr

/-- A probed movie page: HTTP status, `safeText` of the `h1` node and the
JSON-LD release year (`getJsonLdReleaseYear`). -/
structure ProbePageM where
  status : Nat
  h1 : String
  jsonYear : Option Int
deriving Repr, DecidableEq

/-- One search result entry: its displayed title, the year extracted from
its year text (`NaN` modelled as `none`) and the optional link href. -/
structure SearchItemM where
  text : String
  yearFound : Option Int
  href : Option String
deriving Repr, DecidableEq

/-- The search results page: HTTP status, modern and legacy result lists. -/
structure SearchPageM where
  status : Nat
  modern : List SearchItemM
  legacy : List SearchItemM
deriving Repr

/-- The content provider consumed by the resolver. -/
structure ProviderM where
  listPage : Nat → Except Unit ListingPageM
  probe : String → Except Unit ProbePageM
  searchNav : Except Unit SearchPageM

/-- fix-missing-critics.ts `YEAR_PAGES`. -/
def YEAR_PAGES : Nat := 80

/-- `makeUrlAbsolute(href)` = `new URL(href, "https://www.metacritic.com")`,
modelled for the href shapes the site produces (absolute, or
origin-relative paths). -/
def makeUrlAbsolute (href : String) : String :=
  if "http".data.isPrefixOf href.data then href
  else "https://www.metacritic.com" ++ href

/-- First entry of a listing whose extracted title is non-empty, whose link
is present and whose normalized title equals the normalized target. -/
def scanEntries (lower nfkd : List Char → List Char) (normTarget : String) :
    List ListingEntryM → Option String
  | [] => none
  | e :: es =>
    match e.href with
    | some link =>
      if e.text ≠ "" ∧ normalizeTitle lower nfkd e.text = normTarget then
        some (makeUrlAbsolute link)
      else scanEntries lower nfkd normTarget es
    | none => scanEntries lower nfkd normTarget es

/-- Scan one listing page: the product cards first, then the `tr, li` rows. -/
def scanListingPage (lower nfkd : List Char → List Char) (normTarget : String)
    (pg : ListingPageM) : Option String :=
  match scanEntries lower nfkd normTarget pg.cards with
  | some u => some u
  | none => scanEntries lower nfkd normTarget pg.rows2

/-- The listing-scan strategy: `iterateYearPages` (navigate pages `0,1,…`
up to `YEAR_PAGES`, stopping on a navigation fault, a status ≥ 400 or a
page with zero linkable entries) with the per-page scan of
`findMovieUrlForTitleYearInternal`. -/
def listingScanGo (lower nfkd : List Char → List Char) (pv : ProviderM)
    (normTarget : String) (p : Nat) : Nat → Option String
  | 0 => none
  | fuel + 1 =>
    match pv.listPage p with
    | .error _ => none
    | .ok pg =>
      if 400 ≤ pg.status then none
      else if pg.linkCount = 0 then none
      else
        match scanListingPage lower nfkd normTarget pg with
        | some u => some u
        | none => listingScanGo lower nfkd pv normTarget (p + 1) fuel

def listingScan (lower nfkd : List Char → List Char) (pv : ProviderM) (title : String) :
    Option String :=
  listingScanGo lower nfkd pv (normalizeTitle lower nfkd title) 0 YEAR_PAGES

/-- `https://www.metacritic.com/movie/slug`. -/
def movieUrl (slug : String) : String :=
  "https://www.metacritic.com/movie/" ++ slug

/-- `jsonYear ? Math.abs(jsonYear - year) <= 1 : true` (a JSON-LD year, when
present, is 1900–2099, so JS truthiness coincides with presence). -/
def yearOkB (jsonYear : Option Int) (year : Int) : Bool :=
  match jsonYear with
  | some jy => (jy - year).natAbs ≤ 1
  | none => true

/-- The per-candidate loop of `probeDirectMovieSlug` (lines 397–413): a
navigation fault, a status ≥ 400, an empty `h1` or a failed title/year
check each `continue` to the next candidate slug. -/
def probeSlugGo (lower nfkd : List Char → List Char) (pv : ProviderM) (title : String)
    (year : Int) : List String → Option String
  | [] => none
  | slug :: rest =>
    match pv.probe slug with
    | .error _ => probeSlugGo lower nfkd pv title year rest
    | .ok res =>
      if 400 ≤ res.status then probeSlugGo lower nfkd pv title year rest
      else if res.h1 = "" then probeSlugGo lower nfkd pv title year rest
      else if normalizeTitle lower nfkd res.h1 = normalizeTitle lower nfkd title ∧
          yearOkB res.jsonYear year = true then
        some (movieUrl slug)
      else probeSlugGo lower nfkd pv title year rest

def probeDirectMovieSlug (lower nfkd : List Char → List Char) (pv : ProviderM)
    (title : String) (year : Int) : Option String :=
  probeSlugGo lower nfkd pv title year (makeSlugVariants lower nfkd title year)

/-- Scan of one search-result list (lines 426–451): skip entries with an
empty title or no link, require the normalized titles to match, and skip
when a year was extracted and differs by more than 1. -/
def searchScanItems (lower nfkd : List Char → List Char) (title : String) (year : Int) :
    List SearchItemM → Option String
  | [] => none
  | it :: its =>
    match it.href with
    | some link =>
      if it.text = "" then searchScanItems lower nfkd title year its
      else if normalizeTitle lower nfkd it.text ≠ normalizeTitle lower nfkd title then
        searchScanItems lower nfkd title year its
      else
        match it.yearFound with
        | some my =>
          if 1 < (my - year).natAbs then searchScanItems lower nfkd title year its
          else some (makeUrlAbsolute link)
        | none => some (makeUrlAbsolute link)
    | none => searchScanItems lower nfkd title year its

/-- `searchMovieOnMetacritic` (lines 415–454): navigate the search page
(fault or status ≥ 400 → `null`), then scan the modern results and then
the legacy results. -/
def searchMovieOnMetacritic (lower nfkd : List Char → List Char) (pv : ProviderM)
    (title : String) (year : Int) : Option String :=
  match pv.searchNav with
  | .error _ => none
  | .ok pg =>
    if 400 ≤ pg.status then none
    else
      match searchScanItems lower nfkd title year pg.modern with
      | some u => some u
      | none => searchScanItems lower nfkd title year pg.legacy

/-- `findMovieUrlForTitleYearInternal` (lines 456–485): listing scan, then
direct slug probe, then free-text search, each tried only when the
previous strategies produced nothing. -/
def findMovieUrlForTitleYearInternal (lower nfkd : List Char → List Char) (pv : ProviderM)
    (title : String) (year : Int) : Option String :=
  match listingScan lower nfkd pv title with
  | some u => some u
  | none =>
    match probeDirectMovieSlug lower nfkd pv title year with
    | some u => some u
    | none => searchMovieOnMetacritic lower nfkd pv title year

/-! ## The runner's resolve phase (fix-missing-critics.ts `run`, lines 657–708)

`findMovieUrlForTitleYear` races the internal finder against a
`MAX_FIND_MS` timer that resolves `null`; a rejection of the finder
propagates to `run`'s per-title `try/catch`.  A resolution attempt is
therefore one of: found a URL, found nothing, timed out, or threw. -/

inductive ResolveOutcome where
  | found (url : String)
  | nothingFound
  | timedOut
  | threw
deriving Repr, DecidableEq

/-- `findMovieUrlForTitleYear` (lines 487–492) as observed by `run`:
`Promise.race([finder, timer]) ?? null`, with finder rejections escaping
as exceptions. -/
def findWithWatchdog : ResolveOutcome → Except Unit (Option String)
  | .found url => .ok (some url)
  | .nothingFound => .ok none
  | .timedOut => .ok none
  | .threw => .error ()

/-- An input CSV row restricted to the fields the resolve phase reads. -/
structure RawRow where
  movie_title : String
  release_year : Int
deriving Repr, DecidableEq

/-- A deduplicated work item (`wanted` entry): the entity-decoded title and
its year. -/
structure WantedMovie where
  movie_title : String
  year : Int
deriving Repr, DecidableEq

/-- The scheduling key `normalizeTitle(t) + "|" + year`. -/
def wantedKey (lower nfkd : List Char → List Char) (w : WantedMovie) : String :=
  normalizeTitle lower nfkd w.movie_title ++ "|" ++ toString w.year

/-- `Map.set`: overwrite the value at an existing key in place, otherwise
append. -/
def upsert (m : List (String × WantedMovie)) (k : String) (v : WantedMovie) :
    List (String × WantedMovie) :=
  if m.any (fun p => p.1 = k) then m.map (fun p => if p.1 = k then (k, v) else p)
  else m ++ [(k, v)]

/-- `run`'s dedup step (lines 664–674): build a `Map` keyed by
`normalizeTitle(decodeHtmlEntities(title)) + "|" + year` and keep its
values (insertion order). -/
def dedupWanted (lower nfkd : List Char → List Char) (rows : List RawRow) :
    List WantedMovie :=
  (rows.foldl
    (fun m r =>
      let t := decodeHtmlEntitiesS r.movie_title
      upsert m (normalizeTitle lower nfkd t ++ "|" ++ toString r.release_year)
        { movie_title := t, year := r.release_year })
    []).map Prod.snd

/-- `run`'s resolve loop (lines 693–708) over the deduplicated list:
a found URL goes to `foundUrls` under the recomputed key, `null` results
and caught exceptions go to `notFound`. -/
def resolveUrls (lower nfkd : List Char → List Char)
    (behavior : WantedMovie → ResolveOutcome) :
    List WantedMovie → List (String × String) × List WantedMovie
  | [] => ([], [])
  | w :: rest =>
    let acc := resolveUrls lower nfkd behavior rest
    match findWithWatchdog (behavior w) with
    | .ok (some url) => ((wantedKey lower nfkd w, url) :: acc.1, acc.2)
    | .ok none => (acc.1, w :: acc.2)
    | .error _ => (acc.1, w :: acc.2)

/-! ## `mapLimit` (export-movie-reviews.ts lines 61–77, part_000 lines 59–75)

`limit` workers share a claim counter `i`; each worker atomically takes
`j = i++`, stops when `j` is past the end, and otherwise writes
`out[j] = await worker(items[j], j)`.  With a pure worker the claim and the
write commute with every interleaving (distinct workers write distinct
slots), so a schedule is summarised by how many claim attempts have
happened; all claims together take `items.length + limit` attempts
(each worker ends with one failed claim). -/

structure MapLimitState (ρ : Type) where
  ctr : Nat
  out : List (Option ρ)
deriving Repr

/-- One claim attempt by some worker. -/
def mapLimitClaim (items : List τ) (worker : τ → Nat → ρ) (st : MapLimitState ρ) :
    MapLimitState ρ :=
  if h : st.ctr < items.length then
    { ctr := st.ctr + 1,
      out := st.out.set st.ctr (some (worker (items.get ⟨st.ctr, h⟩) st.ctr)) }
  else st

def mapLimitRun (items : List τ) (worker : τ → Nat → ρ) :
    Nat → MapLimitState ρ → MapLimitState ρ
  | 0, st => st
  | k + 1, st => mapLimitClaim items worker (mapLimitRun items worker k st)

/-- `mapLimit(items, limit, worker)`: `out` starts as `new Array(n)` (all
holes); with `limit = 0` there are no workers, no claim attempts happen and
`Promise.all([])` resolves at once with the holes intact. -/
def mapLimit (items : List τ) (limit : Nat) (worker : τ → Nat → ρ) : List (Option ρ) :=
  if limit = 0 then List.replicate items.length none
  else
    (mapLimitRun items worker (items.length + limit)
      { ctr := 0, out := List.replicate items.length none }).out

/-! ## Derived predicates and concrete stubs used by the theorems below -/

/-- Shape of a fully normalized key: only `[a-z0-9 ]` characters, no two
adjacent non-alphanumeric characters, and no leading or trailing
whitespace.  `normalizeTitle` always produces such a string and fixes every
such string (proved below); the real `toLowerCase` and `normalize("NFKD")`
fix such strings as well, since ASCII lower-case letters, digits and the
space are fixed points of both. -/
def canonicalKey (l : List Char) : Bool :=
  l.all (fun c => isLowerAlnum c || c == ' ') &&
    noAdjacent (fun c => !isLowerAlnum c) l &&
    (match l.head? with | some c => !isJsWhitespace c | none => true) &&
    (match l.getLast? with | some c => !isJsWhitespace c | none => true)

/-- The acceptance test applied by `probeDirectMovieSlug` to one probed
page, read off the source: success status (`< 400`), non-empty `h1`,
matching normalized title, and year within ±1 when a JSON-LD year exists. -/
def acceptProbeResult (lower nfkd : List Char → List Char) (res : ProbePageM)
    (title : String) (year : Int) : Bool :=
  decide (res.status < 400) && res.h1 ≠ "" &&
    (normalizeTitle lower nfkd res.h1 == normalizeTitle lower nfkd title) &&
    yearOkB res.jsonYear year

/-- Whether `probeDirectMovieSlug` would accept a given candidate slug
(a transport fault counts as not accepted). -/
def probeAccepts (lower nfkd : List Char → List Char) (pv : ProviderM) (title : String)
    (year : Int) (slug : String) : Bool :=
  match pv.probe slug with
  | .error _ => false
  | .ok res => acceptProbeResult lower nfkd res title year

/-- The acceptance condition exactly as the specification words it
(success status, matching normalized title, year within ±1 or absent) —
written from the spec, for comparison against `acceptProbeResult`; the
spec's wording has no separate non-empty-title requirement. -/
def specClaimedProbeAccept (lower nfkd : List Char → List Char) (res : ProbePageM)
    (title : String) (year : Int) : Bool :=
  decide (res.status < 400) &&
    (normalizeTitle lower nfkd res.h1 == normalizeTitle lower nfkd title) &&
    yearOkB res.jsonYear year

/-- "`s` carries the `-year` suffix" (checked on the character lists so the
definition evaluates by kernel reduction). -/
def hasYearSuffix (s : String) (year : Int) : Bool :=
  ("-" ++ toString year).data.isSuffixOf s.data

/-- A provider all of whose calls throw transport faults. -/
def pvAllFault : ProviderM :=
  { listPage := fun _ => .error (), probe := fun _ => .error (), searchNav := .error () }

/-- A provider whose listing is empty and whose probes always return a
success page with an empty extracted title. -/
def pvEmptyH1 : ProviderM :=
  { listPage := fun _ => .ok { status := 200, linkCount := 0, cards := [], rows2 := [] },
    probe := fun _ => .ok { status := 200, h1 := "", jsonYear := none },
    searchNav := .error () }

/-- A provider whose listing is empty and whose probes all answer with a
page titled "The Great Escape", year 2020. -/
def pvProbeHit : ProviderM :=
  { listPage := fun _ => .ok { status := 200, linkCount := 0, cards := [], rows2 := [] },
    probe := fun _ => .ok { status := 200, h1 := "The Great Escape", jsonYear := some 2020 },
    searchNav := .error () }

/-- A feed serving cumulative prefixes of a fixed catalogue `L`:
`visible r` items are in the DOM after `r` reveal actions. -/
def feedPrefix (L : List γ) (visible : Nat → Nat) : Nat → List γ :=
  fun r => L.take (visible r)

/-- The `i`-th card of the pathological always-fresh feed: a distinct
publication (so a distinct dedup key) and nothing else. -/
def freshCardF (i : Nat) : CriticCardQ :=
  { publication := String.mk (List.replicate (i + 1) 'a'), author := "", score := none,
    quote := "" }

/-- A feed that reveals one brand-new unique card on every reveal, forever,
and never shows a "Showing N Critic Reviews" marker. -/
def alwaysFreshFeedF : Nat → List CriticCardQ :=
  fun r => (List.range (r + 1)).map freshCardF

/-- Concrete three-card catalogues for evaluating the harvest theorems. -/
def demoCardsE : List CriticCard :=
  [{ publication := "Pub A", author := "Alice", score := some 80 },
   { publication := "Pub B", author := "Bob", score := some 70 },
   { publication := "Pub C", author := "Carol", score := some 60 }]

def demoCardsF : List CriticCardQ :=
  [{ publication := "Pub A", author := "Alice", score := some 80, quote := "qa" },
   { publication := "Pub B", author := "Bob", score := some 70, quote := "qb" },
   { publication := "Pub C", author := "Carol", score := some 60, quote := "qc" }]

/-! ## Lemmas about `harvestPass` -/

theorem harvestPass_append (valid : γ → Bool) (key : γ → String) (xs ys : List γ)
    (st : List String × List γ) :
    harvestPass valid key (xs ++ ys) st = harvestPass valid key ys (harvestPass valid key xs st) := by
  induction xs generalizing st with
  | nil => rfl
  | cons c cs ih =>
    obtain ⟨seen, rows⟩ := st
    simp only [List.cons_append, harvestPass]
    by_cases hv : valid c
    · by_cases hk : key c ∈ seen <;> simp [hv, hk, ih]
    · simp [hv, ih]

theorem harvestPass_noop (valid : γ → Bool) (key : γ → String) (cs : List γ)
    (seen : List String) (rows : List γ)
    (h : ∀ c ∈ cs, valid c = true → key c ∈ seen) :
    harvestPass valid key cs (seen, rows) = (seen, rows) := by
  induction cs with
  | nil => rfl
  | cons c cs ih =>
    simp only [harvestPass]
    by_cases hv : valid c
    · have hk : key c ∈ seen := h c (by simp) hv
      simp only [hv, if_pos hk, if_true]
      exact ih fun d hd => h d (by simp [hd])
    · simp only [hv, if_false, Bool.false_eq_true]
      exact ih fun d hd => h d (by simp [hd])

theorem harvestPass_fresh (valid : γ → Bool) (key : γ → String) (cs : List γ)
    (seen : List String) (rows : List γ)
    (hv : ∀ c ∈ cs, valid c = true) (hnd : (cs.map key).Nodup)
    (hdisj : ∀ c ∈ cs, key c ∉ seen) :
    harvestPass valid key cs (seen, rows) = (seen ++ cs.map key, rows ++ cs) := by
  induction cs generalizing seen rows with
  | nil => simp [harvestPass]
  | cons c cs ih =>
    have hvc : valid c = true := hv c (by simp)
    have hkc : key c ∉ seen := hdisj c (by simp)
    have hnd' : (cs.map key).Nodup := (List.nodup_cons.mp (by simpa using hnd)).2
    have hknotin : key c ∉ cs.map key := (List.nodup_cons.mp (by simpa using hnd)).1
    have hdisj' : ∀ d ∈ cs, key d ∉ seen ++ [key c] := by
      intro d hd
      simp only [List.mem_append, List.mem_singleton]
      push_neg
      refine ⟨hdisj d (by simp [hd]), fun hcontra => ?_⟩
      exact hknotin (hcontra ▸ List.mem_map_of_mem key hd)
    simp only [harvestPass, hvc, if_neg hkc, if_true]
    rw [ih (seen ++ [key c]) (rows ++ [c]) (fun d hd => hv d (by simp [hd])) hnd' hdisj']
    simp

theorem harvestPass_seen_eq_map (valid : γ → Bool) (key : γ → String) (cs : List γ)
    (st : List String × List γ) (h : st.1 = st.2.map key) :
    (harvestPass valid key cs st).1 = (harvestPass valid key cs st).2.map key := by
  induction cs generalizing st with
  | nil => exact h
  | cons c cs ih =>
    obtain ⟨seen, rows⟩ := st
    simp only [harvestPass]
    by_cases hv : valid c
    · by_cases hk : key c ∈ seen
      · simp only [hv, if_pos hk, if_true]
        exact ih _ h
      · simp only [hv, if_neg hk, if_true]
        exact ih _ (by simp_all)
    · simp only [hv, if_false, Bool.false_eq_true]
      exact ih _ h

theorem harvestPass_seen_nodup (valid : γ → Bool) (key : γ → String) (cs : List γ)
    (st : List String × List γ) (h : st.1.Nodup) :
    (harvestPass valid key cs st).1.Nodup := by
  induction cs generalizing st with
  | nil => exact h
  | cons c cs ih =>
    obtain ⟨seen, rows⟩ := st
    simp only [harvestPass]
    by_cases hv : valid c
    · by_cases hk : key c ∈ seen
      · simp only [hv, if_pos hk, if_true]
        exact ih _ h
      · simp only [hv, if_neg hk, if_true]
        refine ih _ ?_
        simp only [List.nodup_append, List.nodup_singleton]
        exact ⟨h, by trivial, by simpa [List.disjoint_singleton] using hk⟩
    · simp only [hv, if_false, Bool.false_eq_true]
      exact ih _ h

/-- Merging the first `v'` items of a duplicate-free valid catalogue into a
state that already holds its first `v ≤ v'` items yields exactly the first
`v'` items. -/
theorem harvestPass_take (valid : γ → Bool) (key : γ → String) (L : List γ) (v v' : Nat)
    (hvv : v ≤ v') (hv : ∀ c ∈ L, valid c = true) (hnd : (L.map key).Nodup) :
    harvestPass valid key (L.take v') ((L.take v).map key, L.take v)
      = ((L.take v').map key, L.take v') := by
  have hdecomp : L.take v' = L.take v ++ (L.take v').drop v := by
    conv_lhs => rw [← List.take_append_drop v (L.take v')]
    rw [List.take_take, Nat.min_eq_left hvv]
  rw [hdecomp, harvestPass_append]
  rw [harvestPass_noop _ _ _ _ _ (fun c hc _ => List.mem_map_of_mem key hc)]
  have hsub : ∀ c ∈ (L.take v').drop v, c ∈ L := fun c hc =>
    List.mem_of_mem_take (List.mem_of_mem_drop hc)
  have hndtake : ((L.take v').map key).Nodup := by
    refine List.Nodup.sublist ?_ hnd
    exact List.Sublist.map key (List.take_sublist _ _)
  have hndsplit : (((L.take v).map key) ++ (((L.take v').drop v).map key)).Nodup := by
    rw [← List.map_append, ← hdecomp]
    exact hndtake
  rw [harvestPass_fresh]
  · rw [← List.map_append, ← hdecomp]
  · exact fun c hc => hv c (hsub c hc)
  · exact (List.nodup_append.mp hndsplit).2.1
  · intro c hc hmem
    exact (List.nodup_append.mp hndsplit).2.2 hmem (List.mem_map_of_mem key hc)

/-! ## Lemmas about `mapLimit` -/

theorem mapLimitRun_spec (items : List τ) (worker : τ → Nat → ρ) (k : Nat) :
    (mapLimitRun items worker k
        { ctr := 0, out := List.replicate items.length none }).ctr = min k items.length ∧
    (mapLimitRun items worker k
        { ctr := 0, out := List.replicate items.length none }).out.length = items.length ∧
    ∀ j (hj : j < items.length),
      (mapLimitRun items worker k
          { ctr := 0, out := List.replicate items.length none }).out[j]? =
        if j < min k items.length then some (some (worker (items.get ⟨j, hj⟩) j))
        else some none := by
  induction k with
  | zero =>
    refine ⟨by simp [mapLimitRun], by simp [mapLimitRun], ?_⟩
    intro j hj
    simp [mapLimitRun, List.getElem?_replicate, hj]
  | succ k ih =>
    obtain ⟨ihc, ihl, ihe⟩ := ih
    simp only [mapLimitRun, mapLimitClaim, ihc]
    rcases Nat.lt_or_ge k items.length with hkn | hkn
    · simp only [Nat.min_eq_left hkn.le]
      rw [dif_pos hkn]
      refine ⟨by simp; omega, by simp [List.length_set, ihl], ?_⟩
      intro j hj
      rcases eq_or_ne j k with rfl | hne
      · rw [List.getElem?_set_self (by rw [ihl]; omega)]
        rw [if_pos (by omega)]
      · rw [List.getElem?_set_ne (Ne.symm hne)]
        rw [ihe j hj]
        by_cases hlt : j < min k items.length
        · rw [if_pos hlt, if_pos (by omega)]
        · rw [if_neg hlt, if_neg (by omega)]
    · rw [dif_neg (by omega)]
      refine ⟨by omega, ihl, ?_⟩
      intro j hj
      rw [ihe j hj]
      by_cases hlt : j < min k items.length
      · rw [if_pos hlt, if_pos (by omega)]
      · rw [if_neg hlt, if_neg (by omega)]

/-- C10 (claim theorem).  `mapLimit` preserves input indexing independently
of the concurrency limit: for every item list, every `limit ≥ 1` and a pure
worker, the output has the length of the input, its `j`-th slot holds
`worker items[j] j`, and the result is the same for every choice of the
limit. -/
theorem mapLimit_preserves_indexing {τ ρ : Type} (items : List τ) (worker : τ → Nat → ρ)
    (limit : Nat) (hl : 1 ≤ limit) :
    (mapLimit items limit worker).length = items.length ∧
    (∀ j (hj : j < items.length),
      (mapLimit items limit worker)[j]? = some (some (worker (items.get ⟨j, hj⟩) j))) ∧
    (∀ limit', 1 ≤ limit' → mapLimit items limit worker = mapLimit items limit' worker) := by
  have main : ∀ lim : Nat, 1 ≤ lim →
      (mapLimit items lim worker).length = items.length ∧
      ∀ j (hj : j < items.length),
        (mapLimit items lim worker)[j]? = some (some (worker (items.get ⟨j, hj⟩) j)) := by
    intro lim hlim
    obtain ⟨hc, hlen, he⟩ := mapLimitRun_spec items worker (items.length + lim)
    have hne : lim ≠ 0 := by omega
    constructor
    · simp only [mapLimit, if_neg hne]
      exact hlen
    · intro j hj
      simp only [mapLimit, if_neg hne]
      rw [he j hj, if_pos (by omega)]
  refine ⟨(main limit hl).1, (main limit hl).2, ?_⟩
  intro limit' hl'
  have h1 := main limit hl
  have h2 := main limit' hl'
  apply List.ext_getElem?
  intro j
  by_cases hj : j < items.length
  · rw [(h1.2 j hj), (h2.2 j hj)]
  · have e1 : (mapLimit items limit worker).length ≤ j := by rw [h1.1]; omega
    have e2 : (mapLimit items limit' worker).length ≤ j := by rw [h2.1]; omega
    rw [List.getElem?_eq_none e1, List.getElem?_eq_none e2]

/-- C10 witness: the theorem applied to a concrete list, worker and limit. -/
theorem mapLimit_preserves_indexing_witness :
    (mapLimit [10, 20] 3 (fun (x i : Nat) => x + i)).length = 2 ∧
    (mapLimit [10, 20] 3 (fun (x i : Nat) => x + i))[1]? = some (some 21) := by
  have h := mapLimit_preserves_indexing [10, 20] (fun (x i : Nat) => x + i) 3 (by omega)
  refine ⟨h.1, ?_⟩
  have h1 := h.2.1 1 (by decide)
  simpa using h1

/-! ## Lemmas about `insertUniq` and `makeSlugVariants` -/

theorem contains_iff_memStr (l : List String) (s : String) :
    l.contains s = true ↔ s ∈ l :=
  List.elem_iff

theorem mem_insertUniq (l : List String) (s x : String) :
    x ∈ insertUniq l s ↔ x ∈ l ∨ x = s := by
  unfold insertUniq
  by_cases h : s ∈ l
  · rw [if_pos ((contains_iff_memStr l s).mpr h)]
    constructor
    · exact fun hx => Or.inl hx
    · rintro (hx | rfl)
      · exact hx
      · exact h
  · rw [if_neg (fun hc => h ((contains_iff_memStr l s).mp hc))]
    simp

theorem nodup_insertUniq (l : List String) (s : String) (h : l.Nodup) :
    (insertUniq l s).Nodup := by
  unfold insertUniq
  by_cases hs : s ∈ l
  · rwa [if_pos ((contains_iff_memStr l s).mpr hs)]
  · rw [if_neg (fun hc => hs ((contains_iff_memStr l s).mp hc))]
    simp only [List.nodup_append, List.nodup_singleton]
    exact ⟨h, by trivial, by simpa [List.disjoint_singleton] using hs⟩

theorem head?_insertUniq (l : List String) (s : String) :
    (insertUniq l s).head? = if l = [] then some s else l.head? := by
  unfold insertUniq
  by_cases hs : s ∈ l
  · rw [if_pos ((contains_iff_memStr l s).mpr hs), if_neg (by rintro rfl; simp at hs)]
  · rw [if_neg (fun hc => hs ((contains_iff_memStr l s).mp hc))]
    cases l with
    | nil => simp
    | cons a t => simp

theorem insertUniq_ne_nil (l : List String) (s : String) : insertUniq l s ≠ [] := by
  unfold insertUniq
  by_cases hs : s ∈ l
  · rw [if_pos ((contains_iff_memStr l s).mpr hs)]
    rintro rfl
    simp at hs
  · rw [if_neg (fun hc => hs ((contains_iff_memStr l s).mp hc))]
    simp

/-- The year-suffixed variant is never the empty string. -/
theorem yearSuffixed_ne_empty (base : String) (year : Int) :
    base ++ "-" ++ toString year ≠ "" := by
  intro h
  have hlen := congrArg String.length h
  rw [String.length_append, String.length_append] at hlen
  have h1 : String.length "-" = 1 := rfl
  have h2 : String.length "" = 0 := rfl
  omega

/-- C9 (amended claim theorem).  For every title and year the candidate
list is non-empty and duplicate-free (first-seen order), and whenever the
base slug of the title is non-empty it is the first element — the
generator appends no year to it (the title's own text may still end in the
year digits).  When the base slug is empty, `filter(Boolean)` removes it
and the year-suffixed variant leads instead (see the counterexample). -/
theorem makeSlugVariants_spec (lower nfkd : List Char → List Char) (title : String)
    (year : Int) :
    makeSlugVariants lower nfkd title year ≠ [] ∧
    (makeSlugVariants lower nfkd title year).Nodup ∧
    (makeSlugCore lower nfkd title ≠ "" →
      (makeSlugVariants lower nfkd title year).head? =
        some (makeSlugCore lower nfkd title)) := by
  simp only [makeSlugVariants]
  set base := makeSlugCore lower nfkd title with hbase
  set v1 := insertUniq (insertUniq [] base) (base ++ "-" ++ toString year) with hv1
  set dropped := dropLeadingArticle base with hdropped
  set v2 := if dropped ≠ base then
      insertUniq (insertUniq v1 dropped) (dropped ++ "-" ++ toString year)
    else v1 with hv2
  set amp := ampersandishSlug lower nfkd title with hamp
  set v3 := insertUniq (insertUniq v2 amp) (amp ++ "-" ++ toString year) with hv3
  have hmem1 : base ++ "-" ++ toString year ∈ v1 := by
    rw [hv1, mem_insertUniq]
    exact Or.inr rfl
  have hmem2 : base ++ "-" ++ toString year ∈ v2 := by
    rw [hv2]
    split
    · rw [mem_insertUniq, mem_insertUniq]
      exact Or.inl (Or.inl hmem1)
    · exact hmem1
  have hmem3 : base ++ "-" ++ toString year ∈ v3 := by
    rw [hv3, mem_insertUniq, mem_insertUniq]
    exact Or.inl (Or.inl hmem2)
  have hnd1 : v1.Nodup := nodup_insertUniq _ _ (nodup_insertUniq _ _ (by simp))
  have hnd2 : v2.Nodup := by
    rw [hv2]
    split
    · exact nodup_insertUniq _ _ (nodup_insertUniq _ _ hnd1)
    · exact hnd1
  have hnd3 : v3.Nodup := nodup_insertUniq _ _ (nodup_insertUniq _ _ hnd2)
  have hh1 : v1.head? = some base := by
    rw [hv1, head?_insertUniq]
    have : insertUniq [] base = [base] := by simp [insertUniq]
    rw [this]
    simp
  have hh2 : v2.head? = some base := by
    rw [hv2]
    split
    · rw [head?_insertUniq, head?_insertUniq]
      have hne : v1 ≠ [] := by rintro h; rw [h] at hh1; simp at hh1
      rw [if_neg (insertUniq_ne_nil _ _), if_neg hne]
      exact hh1
    · exact hh1
  have hh3 : v3.head? = some base := by
    rw [hv3, head?_insertUniq, head?_insertUniq]
    have hne : v2 ≠ [] := by rintro h; rw [h] at hh2; simp at hh2
    rw [if_neg (insertUniq_ne_nil _ _), if_neg hne]
    exact hh2
  refine ⟨?_, List.Nodup.filter _ hnd3, ?_⟩
  · intro hnil
    have : base ++ "-" ++ toString year ∈ v3.filter (fun s => s ≠ "") := by
      rw [List.mem_filter]
      exact ⟨hmem3, by simpa using yearSuffixed_ne_empty base year⟩
    rw [hnil] at this
    simp at this
  · intro hne
    obtain ⟨t, ht⟩ : ∃ t, v3 = base :: t := by
      cases hv : v3 with
      | nil => rw [hv] at hh3; simp at hh3
      | cons a t =>
        rw [hv] at hh3
        simp only [List.head?_cons, Option.some.injEq] at hh3
        exact ⟨t, by rw [hh3]⟩
    rw [ht, List.filter_cons_of_pos (by simpa using hne)]
    simp

/-- C9 witness: the amended claim evaluated on a concrete title and year
(`id` instantiates the two Unicode primitives, which act as the identity on
this ASCII input anyway). -/
theorem makeSlugVariants_spec_witness :
    makeSlugVariants id id "great escape" 2020 ≠ [] ∧
    (makeSlugVariants id id "great escape" 2020).Nodup ∧
    (makeSlugVariants id id "great escape" 2020).head? = some "great-escape" := by
  have h := makeSlugVariants_spec id id "great escape" 2020
  refine ⟨h.1, h.2.1, ?_⟩
  have hb : makeSlugCore id id "great escape" = "great-escape" := by decide
  rw [← hb]
  exact h.2.2 (by decide)

/-- C9 counterexample: for the title `"???"` (whose slug is empty) and year
2020 the generated list is exactly `["-2020"]`, so its first element does
carry the `-year` suffix, contradicting the claim as stated. -/
theorem makeSlugVariants_counterexample :
    makeSlugVariants id id "???" 2020 = ["-2020"] ∧
    hasYearSuffix "-2020" 2020 = true := by
  constructor
  · decide
  · decide

/-! ## Lemmas about the resolver strategies -/

/-- The candidate loop of `probeDirectMovieSlug` returns the first
candidate accepted by the probe test, as a `find?` over the candidate
list. -/
theorem probeSlugGo_eq_find (lower nfkd : List Char → List Char) (pv : ProviderM)
    (title : String) (year : Int) (l : List String) :
    probeSlugGo lower nfkd pv title year l =
      (l.find? (probeAccepts lower nfkd pv title year)).map movieUrl := by
  induction l with
  | nil => rfl
  | cons s rest ih =>
    cases hp : pv.probe s with
    | error u =>
      have hacc : probeAccepts lower nfkd pv title year s = false := by
        simp [probeAccepts, hp]
      rw [List.find?_cons_of_neg _ (by simp [hacc])]
      simp only [probeSlugGo, hp]
      exact ih
    | ok res =>
      have haccdef : probeAccepts lower nfkd pv title year s =
          acceptProbeResult lower nfkd res title year := by
        simp [probeAccepts, hp]
      simp only [probeSlugGo, hp]
      by_cases h4 : 400 ≤ res.status
      · have hacc : probeAccepts lower nfkd pv title year s = false := by
          rw [haccdef]
          simp only [acceptProbeResult, Bool.and_eq_false_iff]
          left; left; left
          simpa using (by omega : ¬res.status < 400)
        rw [if_pos h4, List.find?_cons_of_neg _ (by simp [hacc])]
        exact ih
      · rw [if_neg h4]
        by_cases he : res.h1 = ""
        · have hacc : probeAccepts lower nfkd pv title year s = false := by
            rw [haccdef]
            simp only [acceptProbeResult, Bool.and_eq_false_iff]
            left; left; right
            simpa using he
          rw [if_pos he, List.find?_cons_of_neg _ (by simp [hacc])]
          exact ih
        · rw [if_neg he]
          by_cases hm : normalizeTitle lower nfkd res.h1 = normalizeTitle lower nfkd title ∧
              yearOkB res.jsonYear year = true
          · have hacc : probeAccepts lower nfkd pv title year s = true := by
              rw [haccdef]
              simp only [acceptProbeResult, Bool.and_eq_true]
              refine ⟨⟨⟨by simpa using (by omega : res.status < 400), by simpa using he⟩, ?_⟩,
                hm.2⟩
              simpa [beq_iff_eq] using hm.1
            rw [if_pos hm, List.find?_cons_of_pos _ hacc]
            rfl
          · have hacc : probeAccepts lower nfkd pv title year s = false := by
              rw [haccdef]
              rcases Decidable.not_and_iff_or_not.mp hm with hm1 | hm2
              · simp only [acceptProbeResult, Bool.and_eq_false_iff]
                left; right
                simpa [beq_iff_eq] using hm1
              · simp only [acceptProbeResult, Bool.and_eq_false_iff]
                right
                simpa using hm2
            rw [if_neg hm, List.find?_cons_of_neg _ (by simp [hacc])]
            exact ih

/-- With every probe faulting, the candidate loop finds nothing. -/
theorem probeSlugGo_all_fault (lower nfkd : List Char → List Char) (pv : ProviderM)
    (title : String) (year : Int) (l : List String)
    (h : ∀ s, pv.probe s = .error ()) :
    probeSlugGo lower nfkd pv title year l = none := by
  induction l with
  | nil => rfl
  | cons s rest ih =>
    simp only [probeSlugGo, h s]
    exact ih

/-- A navigation fault on listing page `p` ends the listing iteration with
no match. -/
theorem listingScanGo_fault (lower nfkd : List Char → List Char) (pv : ProviderM)
    (normTarget : String) (p fuel : Nat) (h : pv.listPage p = .error ()) :
    listingScanGo lower nfkd pv normTarget p (fuel + 1) = none := by
  simp [listingScanGo, h]

/-- A navigation fault on the very first listing page makes the whole
listing-scan strategy return no match. -/
theorem listingScan_fault_page0 (lower nfkd : List Char → List Char) (pv : ProviderM)
    (title : String) (h : pv.listPage 0 = .error ()) :
    listingScan lower nfkd pv title = none := by
  have h80 : YEAR_PAGES = 79 + 1 := rfl
  rw [listingScan, h80]
  exact listingScanGo_fault lower nfkd pv _ 0 79 h

/-- C4 (claim theorem).  `findMovieUrlForTitleYearInternal` tries its
strategies in the fixed order listing scan → direct slug guess → free-text
search; a successful earlier strategy is returned as-is (short circuit:
the result does not depend on the later strategies' behaviour), and a
later strategy's result is used only when every earlier strategy yielded
nothing. -/
theorem findMovieUrl_strategy_order (lower nfkd : List Char → List Char) (pv : ProviderM)
    (title : String) (year : Int) :
    (∀ u, listingScan lower nfkd pv title = some u →
      findMovieUrlForTitleYearInternal lower nfkd pv title year = some u) ∧
    (listingScan lower nfkd pv title = none →
      ∀ u, probeDirectMovieSlug lower nfkd pv title year = some u →
        findMovieUrlForTitleYearInternal lower nfkd pv title year = some u) ∧
    (listingScan lower nfkd pv title = none →
      probeDirectMovieSlug lower nfkd pv title year = none →
      findMovieUrlForTitleYearInternal lower nfkd pv title year =
        searchMovieOnMetacritic lower nfkd pv title year) := by
  refine ⟨?_, ?_, ?_⟩
  · intro u h
    simp [findMovieUrlForTitleYearInternal, h]
  · intro h1 u h2
    simp [findMovieUrlForTitleYearInternal, h1, h2]
  · intro h1 h2
    simp [findMovieUrlForTitleYearInternal, h1, h2]

/-- Concrete evaluations used by the strategy-order witness. -/
theorem pvProbeHit_listing_eval : listingScan id id pvProbeHit "The Great Escape" = none := by
  decide

theorem pvProbeHit_probe_eval :
    probeDirectMovieSlug id id pvProbeHit "The Great Escape" 2020 =
      some "https://www.metacritic.com/movie/he-reat-scape" := by
  decide

/-- C4 witness: a provider whose listing is empty and whose probe answers
with the queried page resolves through the second strategy. -/
theorem findMovieUrl_strategy_order_witness :
    findMovieUrlForTitleYearInternal id id pvProbeHit "The Great Escape" 2020 =
      some "https://www.metacritic.com/movie/he-reat-scape" := by
  have h := (findMovieUrl_strategy_order id id pvProbeHit "The Great Escape" 2020).2.1
  exact h pvProbeHit_listing_eval "https://www.metacritic.com/movie/he-reat-scape"
    pvProbeHit_probe_eval

/-- C5 counterexample.  The claim's acceptance condition
(`specClaimedProbeAccept`, worded exactly as the spec: success status,
matching normalized title, year absent or within ±1) holds for the probe
answer `{status 200, declaredTitle "", no year}` on the query
`("???", 2020)` — both titles normalize to the empty key — yet
`probeDirectMovieSlug` rejects every candidate (the source also requires
the extracted `h1` to be non-empty) and returns `none`. -/
theorem probeDirect_accept_counterexample :
    probeDirectMovieSlug id id pvEmptyH1 "???" 2020 = none ∧
    specClaimedProbeAccept id id { status := 200, h1 := "", jsonYear := none } "???" 2020
      = true := by
  constructor
  · decide
  · decide

/-- C5 (amended claim theorem).  Candidates are tried in generator order
and the first accepted one is returned
(`probeDirectMovieSlug = find?` over `makeSlugVariants`), and a probed
page is accepted if and only if the probe returned a success status
(`< 400`), the page's declared title is non-empty, it normalizes to the
same key as the query title, and the declared year is absent or within ±1
of the query year.  Relative to the claim as stated, acceptance
additionally requires the declared title text to be non-empty. -/
theorem probeDirectMovieSlug_first_accepted (lower nfkd : List Char → List Char)
    (pv : ProviderM) (title : String) (year : Int) :
    probeDirectMovieSlug lower nfkd pv title year =
      ((makeSlugVariants lower nfkd title year).find?
        (probeAccepts lower nfkd pv title year)).map movieUrl ∧
    (∀ res : ProbePageM,
      acceptProbeResult lower nfkd res title year = true ↔
        (res.status < 400 ∧ res.h1 ≠ "" ∧
          normalizeTitle lower nfkd res.h1 = normalizeTitle lower nfkd title ∧
          yearOkB res.jsonYear year = true)) := by
  constructor
  · exact probeSlugGo_eq_find lower nfkd pv title year _
  · intro res
    simp only [acceptProbeResult, Bool.and_eq_true, decide_eq_true_eq, beq_iff_eq]
    constructor
    · rintro ⟨⟨⟨hs, hh⟩, hn⟩, hy⟩
      exact ⟨hs, by simpa using hh, hn, hy⟩
    · rintro ⟨hs, hh, hn, hy⟩
      exact ⟨⟨⟨hs, by simpa using hh⟩, hn⟩, hy⟩

/-- C5 witness: the amended characterization evaluated on a concrete
provider and query. -/
theorem probeDirectMovieSlug_first_accepted_witness :
    probeDirectMovieSlug id id pvProbeHit "The Great Escape" 2020 =
      ((makeSlugVariants id id "The Great Escape" 2020).find?
        (probeAccepts id id pvProbeHit "The Great Escape" 2020)).map movieUrl ∧
    acceptProbeResult id id { status := 200, h1 := "The Great Escape", jsonYear := some 2020 }
      "The Great Escape" 2020 = true := by
  have h := probeDirectMovieSlug_first_accepted id id pvProbeHit "The Great Escape" 2020
  refine ⟨h.1, ?_⟩
  rw [h.2 _]
  exact ⟨by decide, by decide, rfl, by decide⟩

/-- C7 (claim theorem).  Transport faults are strategy-local: a fault on
the first listing navigation makes the listing scan yield nothing and the
chain still consults the probe and search strategies; probes that all
fault make the direct-guess strategy yield nothing; a fault on the search
navigation makes the search strategy yield nothing.  No fault is ever
propagated out of the resolver (every branch returns an `Option`, never an
exception). -/
theorem resolver_fault_isolation (lower nfkd : List Char → List Char) (pv : ProviderM)
    (title : String) (year : Int) :
    (pv.listPage 0 = .error () →
      findMovieUrlForTitleYearInternal lower nfkd pv title year =
        (match probeDirectMovieSlug lower nfkd pv title year with
         | some u => some u
         | none => searchMovieOnMetacritic lower nfkd pv title year)) ∧
    ((∀ s, pv.probe s = .error ()) →
      probeDirectMovieSlug lower nfkd pv title year = none) ∧
    (pv.searchNav = .error () →
      searchMovieOnMetacritic lower nfkd pv title year = none) := by
  refine ⟨?_, ?_, ?_⟩
  · intro h
    rw [findMovieUrlForTitleYearInternal, listingScan_fault_page0 lower nfkd pv title h]
  · intro h
    exact probeSlugGo_all_fault lower nfkd pv title year _ h
  · intro h
    simp [searchMovieOnMetacritic, h]

/-- C7 witness: with every provider call faulting, the resolver returns
`NotFound` (`none`) instead of raising. -/
theorem resolver_fault_isolation_witness :
    findMovieUrlForTitleYearInternal id id pvAllFault "x" 1999 = none := by
  have h := resolver_fault_isolation id id pvAllFault "x" 1999
  rw [h.1 rfl, h.2.1 (fun _ => rfl), h.2.2 rfl]

/-! ## Termination of the capped harvest loops (export / part_000) -/

/-- The export loop completes within `maxSteps - steps + 1` iterations for
every provider behaviour: each iteration either exits or increments the
step counter, and the head condition stops at `maxSteps`. -/
theorem exportGo_isSome (maxSteps maxStag : Nat) (feed : Nat → List CriticCard)
    (totalAt : Nat → Option Nat) :
    ∀ fuel st, maxSteps - st.steps < fuel →
      (exportGo maxSteps maxStag feed totalAt st fuel).isSome = true := by
  intro fuel
  induction fuel with
  | zero => intro st h; omega
  | succ fuel ih =>
    intro st h
    simp only [exportGo]
    split
    · simp
    · split
      · simp
      · rename_i hSteps
        split
        · simp
        · split
          · exact ih _ (by simp; omega)
          · split
            · simp
            · exact ih _ (by simp; omega)

/-- Same bound for the part_000 loop. -/
theorem part000Go_isSome (maxSteps maxStag : Nat) (feed : Nat → List CriticCard)
    (totalAt : Nat → Option Nat) (hasBtn : Nat → Bool) :
    ∀ fuel st, maxSteps - st.steps < fuel →
      (part000Go maxSteps maxStag feed totalAt hasBtn st fuel).isSome = true := by
  intro fuel
  induction fuel with
  | zero => intro st h; omega
  | succ fuel ih =>
    intro st h
    simp only [part000Go]
    split
    · simp
    · split
      · simp
      · rename_i hSteps
        split
        · simp
        · split
          · exact ih _ (by simp; omega)
          · split
            · split
              · simp
              · exact ih _ (by simp; omega)
            · split
              · simp
              · exact ih _ (by simp; omega)

/-! ## Divergence of the uncapped fix-missing-critics loop -/

theorem dropWhile_eq_self_of_none (p : Char → Bool) (l : List Char)
    (h : ∀ c ∈ l, p c = false) : l.dropWhile p = l := by
  cases l with
  | nil => rfl
  | cons c cs =>
    rw [List.dropWhile_cons_of_neg]
    simp [h c (by simp)]

theorem dropTrailing_eq_self_of_none (p : Char → Bool) (l : List Char)
    (h : ∀ c ∈ l, p c = false) : dropTrailing p l = l := by
  induction l with
  | nil => rfl
  | cons c cs ih =>
    have hcs : dropTrailing p cs = cs := ih fun d hd => h d (by simp [hd])
    simp only [dropTrailing, hcs]
    cases cs with
    | nil => simp [h c (by simp)]
    | cons d ds => rfl

theorem trimChars_eq_self_of_none (l : List Char)
    (h : ∀ c ∈ l, isJsWhitespace c = false) : trimChars l = l := by
  rw [trimChars, dropWhile_eq_self_of_none _ _ h, dropTrailing_eq_self_of_none _ _ h]

/-- The dedup key of the `i`-th fresh card has length `i + 4`, so the keys
of distinct fresh cards are distinct. -/
theorem freshCardF_key_length (i : Nat) : (dedupKeyF (freshCardF i)).length = i + 4 := by
  have hlow : jsLower (String.mk (List.replicate (i + 1) 'a')) =
      String.mk (List.replicate (i + 1) 'a') := by
    simp only [jsLower, List.map_replicate]
    have ha : Char.toLower 'a' = 'a' := by decide
    rw [ha]
  have htrim : jsTrim (String.mk (List.replicate (i + 1) 'a')) =
      String.mk (List.replicate (i + 1) 'a') := by
    simp only [jsTrim]
    rw [trimChars_eq_self_of_none]
    intro c hc
    rw [List.eq_of_mem_replicate hc]
    decide
  simp only [dedupKeyF, freshCardF]
  rw [hlow, htrim]
  have hempty : jsTrim (jsLower (String.mk (([] : List Char).take 120))) = "" := rfl
  have hempty2 : jsTrim (jsLower "") = "" := rfl
  simp only [String.length_append]
  have h1 : (String.mk (List.replicate (i + 1) 'a')).length = i + 1 := by
    simp [String.length]
  have h2 : ("" : String).length = 0 := rfl
  have h3 : ("|" : String).length = 1 := rfl
  norm_num [h1]
  have e1 : (jsTrim (jsLower "")).length = 0 := rfl
  have e2 : (jsTrim (jsLower (String.mk ([] : List Char)))).length = 0 := rfl
  omega

/-- Every fresh card passes the fix-script validity filter. -/
theorem freshCardF_valid (i : Nat) : validCardF (freshCardF i) = true := by
  simp only [validCardF, freshCardF]
  have : String.mk (List.replicate (i + 1) 'a') ≠ "" := by
    intro h
    have := congrArg (fun s => s.data.length) h
    simp at this
  simp [this]

/-- The invariant state of the fix loop on the always-fresh feed after
processing reveal `r`. -/
def freshState (r : Nat) : HarvestState CriticCardQ :=
  { revealed := r, steps := 0, stagnant := 0, total := none,
    seen := (alwaysFreshFeedF r).map dedupKeyF, rows := alwaysFreshFeedF r }

theorem alwaysFreshFeedF_succ (r : Nat) :
    alwaysFreshFeedF (r + 1) = alwaysFreshFeedF r ++ [freshCardF (r + 1)] := by
  simp [alwaysFreshFeedF, List.range_succ]

theorem alwaysFreshFeedF_length (r : Nat) : (alwaysFreshFeedF r).length = r + 1 := by
  simp [alwaysFreshFeedF]

theorem freshKey_not_seen (r : Nat) :
    dedupKeyF (freshCardF (r + 1)) ∉ (alwaysFreshFeedF r).map dedupKeyF := by
  intro hmem
  simp only [alwaysFreshFeedF, List.map_map, List.mem_map] at hmem
  obtain ⟨j, hj, hkey⟩ := hmem
  have hle := congrArg String.length hkey
  rw [Function.comp_apply] at hkey
  have h1 := freshCardF_key_length j
  have h2 := freshCardF_key_length (r + 1)
  have : (dedupKeyF (freshCardF j)).length = (dedupKeyF (freshCardF (r + 1))).length := by
    rw [hkey]
  rw [h1, h2] at this
  simp only [List.mem_range] at hj
  omega

/-- One iteration of the fix loop on the always-fresh feed: the main
harvest pass merges exactly the one new card. -/
theorem freshState_harvest (r : Nat) :
    harvestPass validCardF dedupKeyF (alwaysFreshFeedF (r + 1))
        ((alwaysFreshFeedF r).map dedupKeyF, alwaysFreshFeedF r) =
      ((alwaysFreshFeedF (r + 1)).map dedupKeyF, alwaysFreshFeedF (r + 1)) := by
  rw [alwaysFreshFeedF_succ, harvestPass_append]
  rw [harvestPass_noop _ _ _ _ _ (fun c hc _ => List.mem_map_of_mem dedupKeyF hc)]
  rw [harvestPass_fresh]
  · simp
  · intro c hc
    rw [List.mem_singleton] at hc
    rw [hc]
    exact freshCardF_valid (r + 1)
  · simp
  · intro c hc
    rw [List.mem_singleton] at hc
    rw [hc]
    exact freshKey_not_seen r

/-- On the always-fresh feed the fix loop never exits: every iteration
finds one new unique row, so neither the known-total exit (there is no
total) nor the stagnation exit can fire, and there is no step cap. -/
theorem fixGo_alwaysFresh_none (maxStag : Nat) :
    ∀ fuel r, fixGo maxStag alwaysFreshFeedF (freshState r) fuel = none := by
  intro fuel
  induction fuel with
  | zero => intro r; rfl
  | succ fuel ih =>
    intro r
    simp only [fixGo, freshState, freshState_harvest]
    have hlen : (alwaysFreshFeedF (r + 1)).length = r + 2 := alwaysFreshFeedF_length (r + 1)
    have hlen0 : (alwaysFreshFeedF r).length = r + 1 := alwaysFreshFeedF_length r
    rw [if_neg (by simp [totalDone])]
    rw [if_neg (by rw [hlen, hlen0]; omega)]
    exact ih (r + 1)

/-- C1 counterexample.  The fix-missing-critics `getAllCriticReviewsViaDom`
loop does not terminate — for any number of iterations — on a provider
that reveals one new unique review card on every reveal and never reports
a known total: the claim's "hard iteration cap always applies" fails for
this variant, which has no step cap. -/
theorem fixHarvest_not_terminating :
    ¬ fixHarvestTerminates MAX_STAGNANT_ITERS_FIX alwaysFreshFeedF none := by
  rintro ⟨fuel, out, hout⟩
  have h0 : harvestPass validCardF dedupKeyF (alwaysFreshFeedF 0) ([], []) =
      ((alwaysFreshFeedF 0).map dedupKeyF, alwaysFreshFeedF 0) := by
    decide
  rw [getAllCriticReviewsViaDomFix, h0] at hout
  rw [if_neg (by simp [totalDone])] at hout
  have := fixGo_alwaysFresh_none MAX_STAGNANT_ITERS_FIX fuel 0
  rw [freshState] at this
  rw [this] at hout
  exact Option.noConfusion hout

/-- C1 (amended claim theorem).  For every provider behaviour the
export-movie-reviews and part_000 variants of `getAllCriticReviewsViaDom`
terminate within their hard iteration cap (in addition to the known-total
and stagnation exits): `maxSteps + 1` iterations always suffice, for any
cap and stagnation threshold.  The fix-missing-critics variant carries no
such cap — see the counterexample `fixHarvest_not_terminating`. -/
theorem harvestLoop_bounded_when_capped :
    (∀ (maxSteps maxStag : Nat) (feed : Nat → List CriticCard) (totalAt : Nat → Option Nat),
      (getAllCriticReviewsViaDomExport maxSteps maxStag feed totalAt).isSome = true) ∧
    (∀ (maxSteps maxStag : Nat) (feed : Nat → List CriticCard) (totalAt : Nat → Option Nat)
      (hasBtn : Nat → Bool),
      (getAllCriticReviewsViaDomPart000 maxSteps maxStag feed totalAt hasBtn).isSome = true) := by
  constructor
  · intro maxSteps maxStag feed totalAt
    rw [getAllCriticReviewsViaDomExport]
    split
    · rfl
    · exact exportGo_isSome maxSteps maxStag feed totalAt (maxSteps + 1) _ (by simp)
  · intro maxSteps maxStag feed totalAt hasBtn
    rw [getAllCriticReviewsViaDomPart000]
    split
    · rfl
    · exact part000Go_isSome maxSteps maxStag feed totalAt hasBtn (maxSteps + 1) _ (by simp)

/-! ## Known-total termination of the harvest loops on a cumulative stub -/

/-- Export loop with a known total `K`: from any state holding the first
`visible r < K` items of a `K`-item catalogue, with the feed strictly
growing until the catalogue is exhausted and enough steps left, the loop
exits with `KnownTotalReached` holding the whole catalogue. -/
theorem exportGo_knownTotal (maxSteps maxStag K : Nat) (L : List CriticCard)
    (visible : Nat → Nat) (totalAt : Nat → Option Nat)
    (hlen : L.length = K) (hval : ∀ c ∈ L, validCardE c = true)
    (hnd : (L.map dedupKeyE).Nodup) (hvK : ∀ r, visible r ≤ K)
    (hgrow : ∀ r, visible r < K → visible r < visible (r + 1)) :
    ∀ fuel r σ, visible r < K → K - visible r ≤ fuel →
      σ + (K - visible r) ≤ maxSteps →
      ∃ st', exportGo maxSteps maxStag (feedPrefix L visible) totalAt
          { revealed := r, steps := σ, stagnant := 0, total := some K,
            seen := (L.take (visible r)).map dedupKeyE, rows := L.take (visible r) } fuel
        = some (st', .knownTotalReached) ∧ st'.rows = L := by
  intro fuel
  induction fuel with
  | zero => intro r σ h1 h2 h3; omega
  | succ fuel ih =>
    intro r σ hv hfuel hsteps
    have htk : (L.take (visible r)).length = visible r := by
      rw [List.length_take, hlen]
      omega
    have hgrow_r : visible r < visible (r + 1) := hgrow r hv
    have hv1_le : visible (r + 1) ≤ K := hvK (r + 1)
    have htk1 : (L.take (visible (r + 1))).length = visible (r + 1) := by
      rw [List.length_take, hlen]
      omega
    simp only [exportGo, feedPrefix]
    rw [harvestPass_take validCardE dedupKeyE L (visible r) (visible (r + 1))
      (Nat.le_of_lt hgrow_r) hval hnd]
    rw [if_neg (by simp only [totalDone, htk, decide_eq_true_eq]; omega)]
    rw [if_neg (by omega)]
    by_cases hK : K ≤ visible (r + 1)
    · have hv1K : visible (r + 1) = K := by omega
      rw [if_pos (by simp only [totalDone, htk1, decide_eq_true_eq]; omega)]
      refine ⟨_, rfl, ?_⟩
      simp only [hv1K, ← hlen, List.take_length]
    · rw [if_neg (by simp only [totalDone, htk1, decide_eq_true_eq]; omega)]
      rw [if_pos (by rw [htk, htk1]; omega)]
      exact ih (r + 1) (σ + 1) (by omega) (by omega) (by omega)

/-- Fix-missing-critics loop with a known total `K`: same stub, no step
cap needed. -/
theorem fixGo_knownTotal (maxStag K : Nat) (LF : List CriticCardQ)
    (visible : Nat → Nat)
    (hlen : LF.length = K) (hval : ∀ c ∈ LF, validCardF c = true)
    (hnd : (LF.map dedupKeyF).Nodup) (hvK : ∀ r, visible r ≤ K)
    (hgrow : ∀ r, visible r < K → visible r < visible (r + 1)) :
    ∀ fuel r, visible r < K → K - visible r ≤ fuel →
      ∃ st', fixGo maxStag (feedPrefix LF visible)
          { revealed := r, steps := 0, stagnant := 0, total := some K,
            seen := (LF.take (visible r)).map dedupKeyF, rows := LF.take (visible r) } fuel
        = some (st', .knownTotalReached) ∧ st'.rows = LF := by
  intro fuel
  induction fuel with
  | zero => intro r h1 h2; omega
  | succ fuel ih =>
    intro r hv hfuel
    have htk : (LF.take (visible r)).length = visible r := by
      rw [List.length_take, hlen]
      omega
    have hgrow_r : visible r < visible (r + 1) := hgrow r hv
    have hv1_le : visible (r + 1) ≤ K := hvK (r + 1)
    have htk1 : (LF.take (visible (r + 1))).length = visible (r + 1) := by
      rw [List.length_take, hlen]
      omega
    simp only [fixGo, feedPrefix]
    rw [harvestPass_take validCardF dedupKeyF LF (visible r) (visible (r + 1))
      (Nat.le_of_lt hgrow_r) hval hnd]
    by_cases hK : K ≤ visible (r + 1)
    · have hv1K : visible (r + 1) = K := by omega
      rw [if_pos (by simp only [totalDone, htk1, decide_eq_true_eq]; omega)]
      refine ⟨_, rfl, ?_⟩
      simp only [hv1K, ← hlen, List.take_length]
    · rw [if_neg (by simp only [totalDone, htk1, decide_eq_true_eq]; omega)]
      rw [if_neg (by rw [htk, htk1]; omega)]
      exact ih (r + 1) (by omega) (by omega)

/-- C3 (claim theorem).  For a provider stub that declares a known total of
`K` review cards up front and serves a fixed `K`-card catalogue cumulatively
across multiple reveal steps (strictly growing until exhausted, with
`visible 0 < K` so several reveals are needed, and `K` within the step cap
for the capped variant), both the export-movie-reviews and the
fix-missing-critics `getAllCriticReviewsViaDom` terminate with the
`KnownTotalReached` reason, the result holds exactly `K` items, and no two
result items share a dedup key. -/
theorem harvest_knownTotal_exact (maxSteps maxStag maxStagF K : Nat)
    (L : List CriticCard) (LF : List CriticCardQ) (visible : Nat → Nat)
    (totalAt : Nat → Option Nat)
    (hlenE : L.length = K) (hvalE : ∀ c ∈ L, validCardE c = true)
    (hndE : (L.map dedupKeyE).Nodup)
    (hlenF : LF.length = K) (hvalF : ∀ c ∈ LF, validCardF c = true)
    (hndF : (LF.map dedupKeyF).Nodup)
    (hvK : ∀ r, visible r ≤ K)
    (hgrow : ∀ r, visible r < K → visible r < visible (r + 1))
    (hv0 : visible 0 < K) (htot0 : totalAt 0 = some K) (hcap : K ≤ maxSteps) :
    (∃ st', getAllCriticReviewsViaDomExport maxSteps maxStag (feedPrefix L visible) totalAt
        = some (st', .knownTotalReached) ∧
      st'.rows = L ∧ st'.rows.length = K ∧ (st'.rows.map dedupKeyE).Nodup) ∧
    (∃ st', getAllCriticReviewsViaDomFix maxStagF (feedPrefix LF visible) (some K) (K + 1)
        = some (st', .knownTotalReached) ∧
      st'.rows = LF ∧ st'.rows.length = K ∧ (st'.rows.map dedupKeyF).Nodup) := by
  constructor
  · have h0 := harvestPass_take validCardE dedupKeyE L 0 (visible 0) (Nat.zero_le _) hvalE hndE
    simp only [List.take_zero, List.map_nil] at h0
    have htk0 : (L.take (visible 0)).length = visible 0 := by
      rw [List.length_take, hlenE]
      omega
    rw [getAllCriticReviewsViaDomExport]
    simp only [feedPrefix, h0, htot0]
    rw [if_neg (by simp only [totalDone, htk0, decide_eq_true_eq]; omega)]
    obtain ⟨st', heq, hrows⟩ := exportGo_knownTotal maxSteps maxStag K L visible totalAt
      hlenE hvalE hndE hvK hgrow (maxSteps + 1) 0 0 hv0 (by omega) (by omega)
    refine ⟨st', heq, hrows, ?_, ?_⟩
    · rw [hrows, hlenE]
    · rw [hrows]
      exact hndE
  · have h0 := harvestPass_take validCardF dedupKeyF LF 0 (visible 0) (Nat.zero_le _) hvalF hndF
    simp only [List.take_zero, List.map_nil] at h0
    have htk0 : (LF.take (visible 0)).length = visible 0 := by
      rw [List.length_take, hlenF]
      omega
    rw [getAllCriticReviewsViaDomFix]
    simp only [feedPrefix, h0]
    rw [if_neg (by simp only [totalDone, htk0, decide_eq_true_eq]; omega)]
    obtain ⟨st', heq, hrows⟩ := fixGo_knownTotal maxStagF K LF visible
      hlenF hvalF hndF hvK hgrow (K + 1) 0 hv0 (by omega)
    refine ⟨st', heq, hrows, ?_, ?_⟩
    · rw [hrows, hlenF]
    · rw [hrows]
      exact hndF

/-- C3 witness: three review cards declared as "Showing 3 Critic Reviews",
served one more per reveal, with the scripts' own constants. -/
theorem harvest_knownTotal_exact_witness :
    (∃ st', getAllCriticReviewsViaDomExport MAX_REVIEW_STEPS MAX_STAGNANT_ITERS_EXPORT
        (feedPrefix demoCardsE (fun r => min (r + 1) 3)) (fun _ => some 3)
        = some (st', .knownTotalReached) ∧
      st'.rows = demoCardsE ∧ st'.rows.length = 3 ∧ (st'.rows.map dedupKeyE).Nodup) ∧
    (∃ st', getAllCriticReviewsViaDomFix MAX_STAGNANT_ITERS_FIX
        (feedPrefix demoCardsF (fun r => min (r + 1) 3)) (some 3) 4
        = some (st', .knownTotalReached) ∧
      st'.rows = demoCardsF ∧ st'.rows.length = 3 ∧ (st'.rows.map dedupKeyF).Nodup) :=
  harvest_knownTotal_exact MAX_REVIEW_STEPS MAX_STAGNANT_ITERS_EXPORT MAX_STAGNANT_ITERS_FIX 3
    demoCardsE demoCardsF (fun r => min (r + 1) 3) (fun _ => some 3)
    (by decide) (by decide) (by decide) (by decide) (by decide) (by decide)
    (fun r => by show min (r + 1) 3 ≤ 3; omega)
    (fun r h => by
      have h' : min (r + 1) 3 < 3 := h
      show min (r + 1) 3 < min (r + 1 + 1) 3
      omega)
    (by decide) rfl (by decide)

/-! ## Stagnation termination on a stub that stops producing after step `s` -/

/-- Export loop, plateau phase: once the feed has stopped producing new
unique items (`visible r = visible s` for all `r ≥ s`) and no total is
ever reported, every iteration is zero-progress: the stagnation counter
climbs from `c` to `maxStag` in exactly `maxStag - c` further iterations
and the loop exits `Stagnated`. -/
theorem exportGo_stagnation (maxSteps maxStag s : Nat) (L : List CriticCard)
    (visible : Nat → Nat) (totalAt : Nat → Option Nat)
    (hval : ∀ c ∈ L, validCardE c = true) (hnd : (L.map dedupKeyE).Nodup)
    (hplateau : ∀ r, s ≤ r → visible r = visible s)
    (htotal : ∀ r, totalAt r = none) :
    ∀ fuel c σ ρ, s ≤ ρ → c < maxStag → σ + (maxStag - c) ≤ maxSteps →
      maxStag - c ≤ fuel →
      ∃ st', exportGo maxSteps maxStag (feedPrefix L visible) totalAt
          { revealed := ρ, steps := σ, stagnant := c, total := none,
            seen := (L.take (visible s)).map dedupKeyE, rows := L.take (visible s) } fuel
        = some (st', .stagnated) ∧ st'.steps = σ + (maxStag - c) ∧
        st'.stagnant = maxStag ∧ st'.rows = L.take (visible s) := by
  intro fuel
  induction fuel with
  | zero => intro c σ ρ h1 h2 h3 h4; omega
  | succ fuel ih =>
    intro c σ ρ hρ hc hsteps hfuel
    have hplat1 : visible (ρ + 1) = visible s := hplateau (ρ + 1) (by omega)
    have hplat2 : visible (ρ + 1 + 1) = visible s := hplateau (ρ + 1 + 1) (by omega)
    have hmerge := harvestPass_take validCardE dedupKeyE L (visible s) (visible s)
      (Nat.le_refl _) hval hnd
    simp only [exportGo, feedPrefix, hplat1, hplat2, hmerge, htotal]
    rw [if_neg (by simp [totalDone])]
    rw [if_neg (by omega)]
    rw [if_neg (by simp [totalDone])]
    rw [if_neg (by omega)]
    by_cases hfin : maxStag ≤ c + 1
    · rw [if_pos hfin]
      refine ⟨_, rfl, ?_, ?_, rfl⟩
      · simp only
        omega
      · simp only
        omega
    · rw [if_neg hfin]
      obtain ⟨st', heq, hst, hstag, hrows⟩ :=
        ih (c + 1) (σ + 1) (ρ + 1 + 1) (by omega) (by omega) (by omega) (by omega)
      refine ⟨st', heq, ?_, hstag, hrows⟩
      rw [hst]
      omega

/-- Export loop, productive phase: while `r < s` the feed strictly grows,
every iteration makes progress and keeps the stagnation counter at zero;
at `r = s` the plateau phase takes over.  Starting the loop at step `r`
with `steps = r`, it exits `Stagnated` with exactly `s + maxStag` steps. -/
theorem exportGo_productive (maxSteps maxStag s : Nat) (L : List CriticCard)
    (visible : Nat → Nat) (totalAt : Nat → Option Nat)
    (hval : ∀ c ∈ L, validCardE c = true) (hnd : (L.map dedupKeyE).Nodup)
    (hvlen : ∀ r, visible r ≤ L.length)
    (hgrow : ∀ r, r < s → visible r < visible (r + 1))
    (hplateau : ∀ r, s ≤ r → visible r = visible s)
    (htotal : ∀ r, totalAt r = none)
    (hstag1 : 1 ≤ maxStag) (hcap : s + maxStag ≤ maxSteps) :
    ∀ fuel r, r ≤ s → (s - r) + maxStag ≤ fuel →
      ∃ st', exportGo maxSteps maxStag (feedPrefix L visible) totalAt
          { revealed := r, steps := r, stagnant := 0, total := none,
            seen := (L.take (visible r)).map dedupKeyE, rows := L.take (visible r) } fuel
        = some (st', .stagnated) ∧ st'.steps = s + maxStag ∧
        st'.stagnant = maxStag ∧ st'.rows = L.take (visible s) := by
  intro fuel
  induction fuel with
  | zero => intro r h1 h2; omega
  | succ fuel ih =>
    intro r hr hfuel
    rcases Nat.lt_or_ge r s with hrs | hrs
    · have htk : (L.take (visible r)).length = visible r := by
        rw [List.length_take]
        have := hvlen r
        omega
      have htk1 : (L.take (visible (r + 1))).length = visible (r + 1) := by
        rw [List.length_take]
        have := hvlen (r + 1)
        omega
      have hgrow_r : visible r < visible (r + 1) := hgrow r hrs
      simp only [exportGo, feedPrefix, htotal]
      rw [harvestPass_take validCardE dedupKeyE L (visible r) (visible (r + 1))
        (Nat.le_of_lt hgrow_r) hval hnd]
      rw [if_neg (by simp [totalDone])]
      rw [if_neg (by omega)]
      rw [if_neg (by simp [totalDone])]
      rw [if_pos (by rw [htk, htk1]; omega)]
      exact ih (r + 1) (by omega) (by omega)
    · have hrs' : r = s := by omega
      subst hrs'
      obtain ⟨st', heq, hst, hstag, hrows⟩ :=
        exportGo_stagnation maxSteps maxStag r L visible totalAt hval hnd hplateau htotal
          (fuel + 1) 0 r r (Nat.le_refl _) (by omega) (by omega) (by omega)
      refine ⟨st', heq, ?_, hstag, hrows⟩
      rw [hst]
      omega

/-- part_000 loop, plateau phase (no "Load more" button visible): the
stagnation counter climbs to `maxStag` and the loop exits `Stagnated`. -/
theorem part000Go_stagnation (maxSteps maxStag s : Nat) (L : List CriticCard)
    (visible : Nat → Nat) (totalAt : Nat → Option Nat) (hasBtn : Nat → Bool)
    (hval : ∀ c ∈ L, validCardE c = true) (hnd : (L.map dedupKeyE).Nodup)
    (hplateau : ∀ r, s ≤ r → visible r = visible s)
    (htotal : ∀ r, totalAt r = none)
    (hbtn : ∀ r, hasBtn r = false) :
    ∀ fuel c σ ρ, s ≤ ρ → c < maxStag → σ + (maxStag - c) ≤ maxSteps →
      maxStag - c ≤ fuel →
      ∃ st', part000Go maxSteps maxStag (feedPrefix L visible) totalAt hasBtn
          { revealed := ρ, steps := σ, stagnant := c, total := none,
            seen := (L.take (visible s)).map dedupKeyE, rows := L.take (visible s) } fuel
        = some (st', .stagnated) ∧ st'.steps = σ + (maxStag - c) ∧
        st'.stagnant = maxStag ∧ st'.rows = L.take (visible s) := by
  intro fuel
  induction fuel with
  | zero => intro c σ ρ h1 h2 h3 h4; omega
  | succ fuel ih =>
    intro c σ ρ hρ hc hsteps hfuel
    have hplat1 : visible (ρ + 1) = visible s := hplateau (ρ + 1) (by omega)
    have hmerge := harvestPass_take validCardE dedupKeyE L (visible s) (visible s)
      (Nat.le_refl _) hval hnd
    simp only [part000Go, feedPrefix, hplat1, hmerge, htotal, hbtn]
    rw [if_neg (by simp [totalDone])]
    rw [if_neg (by omega)]
    rw [if_neg (by simp [totalDone])]
    rw [if_neg (by omega)]
    simp only [Bool.false_eq_true, if_false]
    by_cases hfin : maxStag ≤ c + 1
    · rw [if_pos hfin]
      refine ⟨_, rfl, ?_, ?_, rfl⟩
      · simp only
        omega
      · simp only
        omega
    · rw [if_neg hfin]
      obtain ⟨st', heq, hst, hstag, hrows⟩ :=
        ih (c + 1) (σ + 1) (ρ + 1) (by omega) (by omega) (by omega) (by omega)
      refine ⟨st', heq, ?_, hstag, hrows⟩
      rw [hst]
      omega

/-- part_000 loop, productive phase, mirroring `exportGo_productive`. -/
theorem part000Go_productive (maxSteps maxStag s : Nat) (L : List CriticCard)
    (visible : Nat → Nat) (totalAt : Nat → Option Nat) (hasBtn : Nat → Bool)
    (hval : ∀ c ∈ L, validCardE c = true) (hnd : (L.map dedupKeyE).Nodup)
    (hvlen : ∀ r, visible r ≤ L.length)
    (hgrow : ∀ r, r < s → visible r < visible (r + 1))
    (hplateau : ∀ r, s ≤ r → visible r = visible s)
    (htotal : ∀ r, totalAt r = none)
    (hbtn : ∀ r, hasBtn r = false)
    (hstag1 : 1 ≤ maxStag) (hcap : s + maxStag ≤ maxSteps) :
    ∀ fuel r, r ≤ s → (s - r) + maxStag ≤ fuel →
      ∃ st', part000Go maxSteps maxStag (feedPrefix L visible) totalAt hasBtn
          { revealed := r, steps := r, stagnant := 0, total := none,
            seen := (L.take (visible r)).map dedupKeyE, rows := L.take (visible r) } fuel
        = some (st', .stagnated) ∧ st'.steps = s + maxStag ∧
        st'.stagnant = maxStag ∧ st'.rows = L.take (visible s) := by
  intro fuel
  induction fuel with
  | zero => intro r h1 h2; omega
  | succ fuel ih =>
    intro r hr hfuel
    rcases Nat.lt_or_ge r s with hrs | hrs
    · have htk : (L.take (visible r)).length = visible r := by
        rw [List.length_take]
        have := hvlen r
        omega
      have htk1 : (L.take (visible (r + 1))).length = visible (r + 1) := by
        rw [List.length_take]
        have := hvlen (r + 1)
        omega
      have hgrow_r : visible r < visible (r + 1) := hgrow r hrs
      simp only [part000Go, feedPrefix, htotal]
      rw [harvestPass_take validCardE dedupKeyE L (visible r) (visible (r + 1))
        (Nat.le_of_lt hgrow_r) hval hnd]
      rw [if_neg (by simp [totalDone])]
      rw [if_neg (by omega)]
      rw [if_neg (by simp [totalDone])]
      rw [if_pos (by rw [htk, htk1]; omega)]
      exact ih (r + 1) (by omega) (by omega)
    · have hrs' : r = s := by omega
      subst hrs'
      obtain ⟨st', heq, hst, hstag, hrows⟩ :=
        part000Go_stagnation maxSteps maxStag r L visible totalAt hasBtn hval hnd hplateau
          htotal hbtn (fuel + 1) 0 r r (Nat.le_refl _) (by omega) (by omega) (by omega)
      refine ⟨st', heq, ?_, hstag, hrows⟩
      rw [hst]
      omega

/-- C2 (claim theorem).  For a provider stub that serves a fixed catalogue,
strictly grows for the first `s` reveal steps, stops producing new unique
items after step `s`, never reports a known total and (for part_000) shows
no "Load more" button, both the export-movie-reviews and the part_000
`getAllCriticReviewsViaDom` terminate with the `Stagnated` reason after
exactly `maxStag` (the stagnation threshold) consecutive zero-progress
iterations following step `s`: the final step count is exactly
`s + maxStag` and the final stagnation counter is exactly `maxStag` (the
counter is reset to zero by each of the `s` productive iterations and
incremented by each of the `maxStag` zero-progress ones), provided the
step cap does not intervene (`s + maxStag ≤ maxSteps`). -/
theorem harvest_stagnated_exact (maxSteps maxStag s : Nat) (L : List CriticCard)
    (visible : Nat → Nat) (totalAt : Nat → Option Nat) (hasBtn : Nat → Bool)
    (hval : ∀ c ∈ L, validCardE c = true) (hnd : (L.map dedupKeyE).Nodup)
    (hvlen : ∀ r, visible r ≤ L.length)
    (hgrow : ∀ r, r < s → visible r < visible (r + 1))
    (hplateau : ∀ r, s ≤ r → visible r = visible s)
    (htotal : ∀ r, totalAt r = none)
    (hbtn : ∀ r, hasBtn r = false)
    (hstag1 : 1 ≤ maxStag) (hcap : s + maxStag ≤ maxSteps) :
    (∃ st', getAllCriticReviewsViaDomExport maxSteps maxStag (feedPrefix L visible) totalAt
        = some (st', .stagnated) ∧ st'.steps = s + maxStag ∧ st'.stagnant = maxStag ∧
        st'.rows = L.take (visible s)) ∧
    (∃ st', getAllCriticReviewsViaDomPart000 maxSteps maxStag (feedPrefix L visible) totalAt
          hasBtn
        = some (st', .stagnated) ∧ st'.steps = s + maxStag ∧ st'.stagnant = maxStag ∧
        st'.rows = L.take (visible s)) := by
  have h0 := harvestPass_take validCardE dedupKeyE L 0 (visible 0) (Nat.zero_le _) hval hnd
  simp only [List.take_zero, List.map_nil] at h0
  constructor
  · rw [getAllCriticReviewsViaDomExport]
    simp only [feedPrefix, h0, htotal]
    rw [if_neg (by simp [totalDone])]
    exact exportGo_productive maxSteps maxStag s L visible totalAt hval hnd hvlen hgrow
      hplateau htotal hstag1 hcap (maxSteps + 1) 0 (Nat.zero_le _) (by omega)
  · rw [getAllCriticReviewsViaDomPart000]
    simp only [feedPrefix, h0, htotal]
    rw [if_neg (by simp [totalDone])]
    exact part000Go_productive maxSteps maxStag s L visible totalAt hasBtn hval hnd hvlen
      hgrow hplateau htotal hbtn hstag1 hcap (maxSteps + 1) 0 (Nat.zero_le _) (by omega)

/-- C2 witness: a stub serving two unique cards over the first two reveal
steps and nothing new afterwards, with the scripts' own constants; both
loops stagnate after exactly `2 + 8` iterations with the counter at 8. -/
theorem harvest_stagnated_exact_witness :
    (∃ st', getAllCriticReviewsViaDomExport MAX_REVIEW_STEPS MAX_STAGNANT_ITERS_EXPORT
        (feedPrefix demoCardsE (fun r => min r 2)) (fun _ => none)
        = some (st', .stagnated) ∧ st'.steps = 2 + MAX_STAGNANT_ITERS_EXPORT ∧
        st'.stagnant = MAX_STAGNANT_ITERS_EXPORT ∧ st'.rows = demoCardsE.take 2) ∧
    (∃ st', getAllCriticReviewsViaDomPart000 MAX_REVIEW_STEPS MAX_STAGNANT_ITERS_EXPORT
        (feedPrefix demoCardsE (fun r => min r 2)) (fun _ => none) (fun _ => false)
        = some (st', .stagnated) ∧ st'.steps = 2 + MAX_STAGNANT_ITERS_EXPORT ∧
        st'.stagnant = MAX_STAGNANT_ITERS_EXPORT ∧ st'.rows = demoCardsE.take 2) := by
  have h := harvest_stagnated_exact MAX_REVIEW_STEPS MAX_STAGNANT_ITERS_EXPORT 2 demoCardsE
    (fun r => min r 2) (fun _ => none) (fun _ => false)
    (by decide) (by decide)
    (fun r => by show min r 2 ≤ demoCardsE.length; have : demoCardsE.length = 3 := by decide
                 omega)
    (fun r hr => by show min r 2 < min (r + 1) 2; omega)
    (fun r hr => by show min r 2 = min 2 2; omega)
    (fun _ => rfl) (fun _ => rfl) (by decide) (by decide)
  simp only [Nat.min_self] at h
  exact h

/-! ## The resolve phase partitions the deduplicated queries -/

/-- Every resolution attempt produces exactly one entry: the counts add up
and the emitted keys are a permutation of the input keys. -/
theorem resolveUrls_partition (lower nfkd : List Char → List Char)
    (behavior : WantedMovie → ResolveOutcome) (wanted : List WantedMovie) :
    (resolveUrls lower nfkd behavior wanted).1.length +
      (resolveUrls lower nfkd behavior wanted).2.length = wanted.length ∧
    ((resolveUrls lower nfkd behavior wanted).1.map Prod.fst ++
      (resolveUrls lower nfkd behavior wanted).2.map (wantedKey lower nfkd)).Perm
      (wanted.map (wantedKey lower nfkd)) := by
  induction wanted with
  | nil => exact ⟨rfl, List.Perm.refl _⟩
  | cons w rest ih =>
    obtain ⟨ihl, ihp⟩ := ih
    simp only [resolveUrls]
    cases hb : findWithWatchdog (behavior w) with
    | ok o =>
      cases o with
      | some url =>
        refine ⟨by simp only [List.length_cons]; omega, ?_⟩
        simp only [List.map_cons, List.cons_append, List.length_cons]
        exact ihp.cons _
      | none =>
        refine ⟨by simp only [List.length_cons]; omega, ?_⟩
        simp only [List.map_cons]
        refine List.Perm.trans List.perm_middle ?_
        exact ihp.cons _
    | error e =>
      refine ⟨by simp only [List.length_cons]; omega, ?_⟩
      simp only [List.map_cons]
      refine List.Perm.trans List.perm_middle ?_
      exact ihp.cons _

/-- `upsert` keeps first-insertion key order: overwriting does not change
the key list, inserting appends a fresh key. -/
theorem upsert_map_fst_nodup (m : List (String × WantedMovie)) (k : String) (v : WantedMovie)
    (h : (m.map Prod.fst).Nodup) : ((upsert m k v).map Prod.fst).Nodup := by
  unfold upsert
  by_cases hk : m.any (fun p => p.1 = k)
  · rw [if_pos hk]
    have : (m.map (fun p => if p.1 = k then (k, v) else p)).map Prod.fst = m.map Prod.fst := by
      rw [List.map_map]
      refine List.map_congr_left ?_
      intro p hp
      by_cases hpk : p.1 = k
      · simp [hpk]
      · simp [hpk]
    rw [this]
    exact h
  · rw [if_neg hk]
    have hnot : k ∉ m.map Prod.fst := by
      intro hmem
      obtain ⟨p, hp, hpk⟩ := List.mem_map.mp hmem
      exact hk (List.any_eq_true.mpr ⟨p, hp, by simp [hpk]⟩)
    simp only [List.map_append, List.map_cons, List.map_nil]
    simp only [List.nodup_append, List.nodup_singleton]
    exact ⟨h, by trivial, by simpa [List.disjoint_singleton] using hnot⟩

/-- `upsert` preserves "every stored key is the key of its stored value"
when the inserted pair satisfies it. -/
theorem upsert_key_consistent (lower nfkd : List Char → List Char)
    (m : List (String × WantedMovie)) (k : String) (v : WantedMovie)
    (h : ∀ p ∈ m, p.1 = wantedKey lower nfkd p.2) (hkv : k = wantedKey lower nfkd v) :
    ∀ p ∈ upsert m k v, p.1 = wantedKey lower nfkd p.2 := by
  unfold upsert
  by_cases hk : m.any (fun p => p.1 = k)
  · rw [if_pos hk]
    intro p hp
    obtain ⟨q, hq, hqp⟩ := List.mem_map.mp hp
    by_cases hqk : q.1 = k
    · rw [if_pos hqk] at hqp
      rw [← hqp]
      exact hkv
    · rw [if_neg hqk] at hqp
      rw [← hqp]
      exact h q hq
  · rw [if_neg hk]
    intro p hp
    rcases List.mem_append.mp hp with hp | hp
    · exact h p hp
    · rw [List.mem_singleton] at hp
      rw [hp]
      exact hkv

/-- The dedup fold produces an association list with duplicate-free,
value-consistent keys. -/
theorem dedupFold_invariant (lower nfkd : List Char → List Char) (rows : List RawRow) :
    ∀ m : List (String × WantedMovie),
      (m.map Prod.fst).Nodup → (∀ p ∈ m, p.1 = wantedKey lower nfkd p.2) →
      ((rows.foldl
          (fun m r =>
            let t := decodeHtmlEntitiesS r.movie_title
            upsert m (normalizeTitle lower nfkd t ++ "|" ++ toString r.release_year)
              { movie_title := t, year := r.release_year })
          m).map Prod.fst).Nodup ∧
      (∀ p ∈ rows.foldl
          (fun m r =>
            let t := decodeHtmlEntitiesS r.movie_title
            upsert m (normalizeTitle lower nfkd t ++ "|" ++ toString r.release_year)
              { movie_title := t, year := r.release_year })
          m, p.1 = wantedKey lower nfkd p.2) := by
  induction rows with
  | nil => exact fun m h1 h2 => ⟨h1, h2⟩
  | cons r rest ih =>
    intro m h1 h2
    simp only [List.foldl_cons]
    exact ih _ (upsert_map_fst_nodup m _ _ h1)
      (upsert_key_consistent lower nfkd m _ _ h2 rfl)

/-- The deduplicated work list has duplicate-free scheduling keys. -/
theorem dedupWanted_keys_nodup (lower nfkd : List Char → List Char) (rows : List RawRow) :
    ((dedupWanted lower nfkd rows).map (wantedKey lower nfkd)).Nodup := by
  obtain ⟨hnd, hcons⟩ := dedupFold_invariant lower nfkd rows [] (by simp) (by simp)
  rw [dedupWanted, List.map_map]
  have : (rows.foldl
        (fun m r =>
          let t := decodeHtmlEntitiesS r.movie_title
          upsert m (normalizeTitle lower nfkd t ++ "|" ++ toString r.release_year)
            { movie_title := t, year := r.release_year })
        []).map (wantedKey lower nfkd ∘ Prod.snd) =
      (rows.foldl
        (fun m r =>
          let t := decodeHtmlEntitiesS r.movie_title
          upsert m (normalizeTitle lower nfkd t ++ "|" ++ toString r.release_year)
            { movie_title := t, year := r.release_year })
        []).map Prod.fst := by
    refine List.map_congr_left ?_
    intro p hp
    exact (hcons p hp).symm
  rw [this]
  exact hnd

/-- C6 (claim theorem).  For every input row list and every per-query
resolution behaviour — including queries that time out on the
`MAX_FIND_MS` watchdog (`timedOut`) or whose resolution throws (`threw`),
both of which `run` converts into `notFound` entries instead of letting
them escape the per-task boundary — the resolve phase of `run` places each
distinct deduplicated query in exactly one of the two outcome partitions
(`foundUrls` / `notFound`), so the sizes of the two partitions add up to
the number of distinct deduplicated queries. -/
theorem run_partitions_queries (lower nfkd : List Char → List Char) (rows : List RawRow)
    (behavior : WantedMovie → ResolveOutcome) :
    (resolveUrls lower nfkd behavior (dedupWanted lower nfkd rows)).1.length +
      (resolveUrls lower nfkd behavior (dedupWanted lower nfkd rows)).2.length =
      (dedupWanted lower nfkd rows).length ∧
    ∀ w ∈ dedupWanted lower nfkd rows,
      (wantedKey lower nfkd w ∈
          (resolveUrls lower nfkd behavior (dedupWanted lower nfkd rows)).1.map Prod.fst ∧
        wantedKey lower nfkd w ∉
          (resolveUrls lower nfkd behavior (dedupWanted lower nfkd rows)).2.map
            (wantedKey lower nfkd)) ∨
      (wantedKey lower nfkd w ∉
          (resolveUrls lower nfkd behavior (dedupWanted lower nfkd rows)).1.map Prod.fst ∧
        wantedKey lower nfkd w ∈
          (resolveUrls lower nfkd behavior (dedupWanted lower nfkd rows)).2.map
            (wantedKey lower nfkd)) := by
  obtain ⟨hlen, hperm⟩ :=
    resolveUrls_partition lower nfkd behavior (dedupWanted lower nfkd rows)
  have hnd := dedupWanted_keys_nodup lower nfkd rows
  refine ⟨hlen, ?_⟩
  intro w hw
  have hmem : wantedKey lower nfkd w ∈
      (dedupWanted lower nfkd rows).map (wantedKey lower nfkd) :=
    List.mem_map_of_mem _ hw
  have hcount1 := List.count_eq_one_of_mem hnd hmem
  have hcnt := hperm.count_eq (wantedKey lower nfkd w)
  rw [List.count_append, hcount1] at hcnt
  by_cases hf : wantedKey lower nfkd w ∈
      (resolveUrls lower nfkd behavior (dedupWanted lower nfkd rows)).1.map Prod.fst
  · left
    refine ⟨hf, fun hnf => ?_⟩
    have h1 : List.count (wantedKey lower nfkd w)
        ((resolveUrls lower nfkd behavior (dedupWanted lower nfkd rows)).1.map Prod.fst)
        ≠ 0 := fun h0 => (List.count_eq_zero.mp h0) hf
    have h2 : List.count (wantedKey lower nfkd w)
        ((resolveUrls lower nfkd behavior (dedupWanted lower nfkd rows)).2.map
          (wantedKey lower nfkd)) ≠ 0 := fun h0 => (List.count_eq_zero.mp h0) hnf
    omega
  · right
    refine ⟨hf, ?_⟩
    have h0 := List.count_eq_zero.mpr hf
    rw [h0] at hcnt
    by_contra hnf
    have := List.count_eq_zero.mpr hnf
    omega

/-! ## Idempotence of `normalizeTitle`

Strategy: `normalizeTitle` always outputs a string of `canonicalKey` shape,
and every stage of the pipeline fixes strings of that shape (for the two
Unicode primitives this is a hypothesis, true of the real functions), so
running the pipeline twice equals running it once. -/

theorem ws_not_alnum (c : Char) (h : isJsWhitespace c = true) : isLowerAlnum c = false := by
  simp only [isJsWhitespace, Bool.or_eq_true, decide_eq_true_eq] at h
  rcases h with ((((((rfl | rfl) | rfl) | rfl) | rfl) | rfl) | rfl) <;> decide

theorem asciiLower_eq_self (c : Char) (h : isLowerAlnum c = true ∨ c = ' ') :
    asciiLower c = c := by
  unfold asciiLower
  rw [if_neg]
  rintro ⟨h1, h2⟩
  rcases h with h | rfl
  · simp only [isLowerAlnum, Bool.or_eq_true, Bool.and_eq_true, decide_eq_true_eq] at h
    rw [Char.le_def, UInt32.le_def, BitVec.le_def] at h1 h2
    have eA : ('A' : Char).val.toBitVec.toNat = 65 := rfl
    have eZ : ('Z' : Char).val.toBitVec.toNat = 90 := rfl
    rcases h with ⟨ha, hb⟩ | ⟨ha, hb⟩
    · rw [Char.le_def, UInt32.le_def, BitVec.le_def] at ha hb
      have ea : ('a' : Char).val.toBitVec.toNat = 97 := rfl
      omega
    · rw [Char.le_def, UInt32.le_def, BitVec.le_def] at ha hb
      have e9 : ('9' : Char).val.toBitVec.toNat = 57 := rfl
      omega
  · exact absurd h1 (by decide)

theorem not_amp_of_keyChar (c : Char) (h : isLowerAlnum c = true ∨ c = ' ') :
    asciiLower c ≠ '&' := by
  rw [asciiLower_eq_self c h]
  rintro rfl
  rcases h with h | h
  · exact absurd h (by decide)
  · exact absurd h (by decide)

theorem combining_false_of_keyChar (c : Char) (h : isLowerAlnum c = true ∨ c = ' ') :
    isCombiningMark c = false := by
  have hlt : c.toNat < 0x300 := by
    rcases h with h | rfl
    · simp only [isLowerAlnum, Bool.or_eq_true, Bool.and_eq_true, decide_eq_true_eq] at h
      have hnat : Char.toNat c = c.val.toBitVec.toNat := rfl
      rcases h with ⟨ha, hb⟩ | ⟨ha, hb⟩ <;>
        · rw [Char.le_def, UInt32.le_def, BitVec.le_def] at ha hb
          have ez : ('z' : Char).val.toBitVec.toNat = 122 := rfl
          have e9 : ('9' : Char).val.toBitVec.toNat = 57 := rfl
          omega
    · decide
  simp only [isCombiningMark, Bool.and_eq_false_iff]
  left
  simpa using (by omega : ¬768 ≤ c.toNat)

theorem noAdjacent_tail (p : Char → Bool) (c : Char) (cs : List Char)
    (h : noAdjacent p (c :: cs) = true) : noAdjacent p cs = true := by
  cases cs with
  | nil => rfl
  | cons d ds =>
    simp only [noAdjacent, Bool.and_eq_true] at h
    exact h.2

theorem noAdjacent_pair (p : Char → Bool) (a b : Char) (t : List Char)
    (h : noAdjacent p (a :: b :: t) = true) : ¬(p a = true ∧ p b = true) := by
  simp only [noAdjacent, Bool.and_eq_true, Bool.not_eq_true'] at h
  rintro ⟨h1, h2⟩
  rw [h1, h2] at h
  simp at h

theorem noAdjacent_mono (p q : Char → Bool) (himp : ∀ c, q c = true → p c = true) :
    ∀ l, noAdjacent p l = true → noAdjacent q l = true := by
  intro l
  induction l with
  | nil => simp [noAdjacent]
  | cons a t ih =>
    cases t with
    | nil => simp [noAdjacent]
    | cons b t2 =>
      intro h
      have hpair := noAdjacent_pair p a b t2 h
      have htail := ih (noAdjacent_tail p a (b :: t2) h)
      simp only [noAdjacent, Bool.and_eq_true] at htail ⊢
      refine ⟨?_, htail⟩
      by_cases hqa : q a = true
      · by_cases hqb : q b = true
        · exact absurd ⟨himp a hqa, himp b hqb⟩ hpair
        · simp [hqb]
      · simp [hqa]

theorem mem_collapseRunsAux (p : Char → Bool) (rep : Char) :
    ∀ (l : List Char) (b : Bool) (c : Char), c ∈ collapseRunsAux p rep b l →
      (c ∈ l ∧ p c = false) ∨ c = rep := by
  intro l
  induction l with
  | nil => intro b c h; simp [collapseRunsAux] at h
  | cons d ds ih =>
    intro b c h
    simp only [collapseRunsAux] at h
    by_cases hpd : p d = true
    · cases b with
      | true =>
        rw [if_pos hpd, if_pos rfl] at h
        rcases ih true c h with ⟨hm, hp⟩ | hr
        · exact Or.inl ⟨by simp [hm], hp⟩
        · exact Or.inr hr
      | false =>
        rw [if_pos hpd] at h
        simp only [Bool.false_eq_true, if_false, List.mem_cons] at h
        rcases h with rfl | h
        · exact Or.inr rfl
        · rcases ih true c h with ⟨hm, hp⟩ | hr
          · exact Or.inl ⟨by simp [hm], hp⟩
          · exact Or.inr hr
    · rw [if_neg hpd, List.mem_cons] at h
      rcases h with rfl | h
      · exact Or.inl ⟨by simp, by simpa using hpd⟩
      · rcases ih false c h with ⟨hm, hp⟩ | hr
        · exact Or.inl ⟨by simp [hm], hp⟩
        · exact Or.inr hr

theorem collapseRunsAux_head_true (p : Char → Bool) (rep : Char) :
    ∀ (l : List Char) (c : Char) (cs : List Char),
      collapseRunsAux p rep true l = c :: cs → p c = false := by
  intro l
  induction l with
  | nil => intro c cs h; simp [collapseRunsAux] at h
  | cons d ds ih =>
    intro c cs h
    simp only [collapseRunsAux] at h
    by_cases hpd : p d = true
    · rw [if_pos hpd] at h
      simp only [if_true] at h
      exact ih c cs h
    · rw [if_neg hpd] at h
      rw [List.cons.injEq] at h
      rw [← h.1]
      simpa using hpd

theorem noAdjacent_collapseRunsAux (p : Char → Bool) (rep : Char) :
    ∀ (l : List Char) (b : Bool), noAdjacent p (collapseRunsAux p rep b l) = true := by
  intro l
  induction l with
  | nil => intro b; rfl
  | cons d ds ih =>
    intro b
    simp only [collapseRunsAux]
    by_cases hpd : p d = true
    · cases b with
      | true =>
        rw [if_pos hpd, if_pos rfl]
        exact ih true
      | false =>
        rw [if_pos hpd]
        simp only [Bool.false_eq_true, if_false]
        cases hR : collapseRunsAux p rep true ds with
        | nil => rfl
        | cons e es =>
          have hpe : p e = false := collapseRunsAux_head_true p rep ds e es hR
          have htail := ih true
          rw [hR] at htail
          simp only [noAdjacent, hpe, Bool.and_false, Bool.not_false, Bool.true_and]
          exact htail
    · rw [if_neg hpd]
      cases hR : collapseRunsAux p rep false ds with
      | nil => rfl
      | cons e es =>
        have htail := ih false
        rw [hR] at htail
        simp only [noAdjacent, Bool.and_eq_true, Bool.not_eq_true']
        refine ⟨?_, htail⟩
        simp only [Bool.not_eq_true] at hpd
        rw [hpd]
        simp

theorem collapseRunsAux_eq_self (p : Char → Bool) (rep : Char) :
    ∀ (l : List Char) (b : Bool),
      (∀ c ∈ l, p c = true → c = rep) → noAdjacent p l = true →
      (b = true → ∀ c cs, l = c :: cs → p c = false) →
      collapseRunsAux p rep b l = l := by
  intro l
  induction l with
  | nil => intro b _ _ _; rfl
  | cons d ds ih =>
    intro b hrep hadj hhead
    simp only [collapseRunsAux]
    by_cases hpd : p d = true
    · cases b with
      | true => exact absurd hpd (by simp [hhead rfl d ds rfl])
      | false =>
        rw [if_pos hpd]
        simp only [Bool.false_eq_true, if_false]
        have hdrep : d = rep := hrep d (by simp) hpd
        have hheadtrue : ∀ e es, ds = e :: es → p e = false := by
          intro e es hes
          subst hes
          have hp := noAdjacent_pair p d e es hadj
          by_cases hpe : p e = true
          · exact absurd ⟨hpd, hpe⟩ hp
          · simpa using hpe
        have htail := ih true (fun e he hpe => hrep e (by simp [he]) hpe)
          (noAdjacent_tail p d ds hadj) (fun _ => hheadtrue)
        rw [htail, hdrep]
    · rw [if_neg hpd, List.cons.injEq]
      refine ⟨rfl, ?_⟩
      exact ih false (fun e he hpe => hrep e (by simp [he]) hpe)
        (noAdjacent_tail p d ds hadj) (by simp)

theorem head?_dropWhile_false (q : Char → Bool) :
    ∀ (l : List Char) (c : Char), (l.dropWhile q).head? = some c → q c = false := by
  intro l
  induction l with
  | nil => intro c h; simp at h
  | cons d ds ih =>
    intro c h
    rw [List.dropWhile_cons] at h
    by_cases hqd : q d = true
    · rw [if_pos hqd] at h
      exact ih c h
    · rw [if_neg hqd] at h
      simp only [List.head?_cons, Option.some.injEq] at h
      rw [← h]
      simpa using hqd

theorem mem_dropWhile_sub (q : Char → Bool) :
    ∀ (l : List Char) (c : Char), c ∈ l.dropWhile q → c ∈ l := by
  intro l
  induction l with
  | nil => intro c h; simp at h
  | cons d ds ih =>
    intro c h
    rw [List.dropWhile_cons] at h
    by_cases hqd : q d = true
    · rw [if_pos hqd] at h
      exact List.mem_cons_of_mem d (ih c h)
    · rw [if_neg hqd] at h
      exact h

theorem noAdjacent_dropWhile (p q : Char → Bool) :
    ∀ l, noAdjacent p l = true → noAdjacent p (l.dropWhile q) = true := by
  intro l
  induction l with
  | nil => intro h; exact h
  | cons d ds ih =>
    intro h
    rw [List.dropWhile_cons]
    by_cases hqd : q d = true
    · rw [if_pos hqd]
      exact ih (noAdjacent_tail p d ds h)
    · rw [if_neg hqd]
      exact h

theorem mem_dropTrailing_sub (q : Char → Bool) :
    ∀ (l : List Char) (c : Char), c ∈ dropTrailing q l → c ∈ l := by
  intro l
  induction l with
  | nil => intro c h; simp [dropTrailing] at h
  | cons d ds ih =>
    intro c h
    simp only [dropTrailing] at h
    cases hds : dropTrailing q ds with
    | nil =>
      rw [hds] at h
      by_cases hqd : q d = true
      · rw [if_pos hqd] at h
        simp at h
      · rw [if_neg hqd] at h
        simp only [List.mem_singleton] at h
        simp [h]
    | cons e es =>
      rw [hds] at h
      rcases List.mem_cons.mp h with rfl | h2
      · simp
      · have : c ∈ dropTrailing q ds := by rw [hds]; exact h2
        exact List.mem_cons_of_mem d (ih c this)

theorem head?_dropTrailing (q : Char → Bool) :
    ∀ (l : List Char) (c : Char), (dropTrailing q l).head? = some c → l.head? = some c := by
  intro l
  induction l with
  | nil => intro c h; simp [dropTrailing] at h
  | cons d ds _ =>
    intro c h
    simp only [dropTrailing] at h
    cases hds : dropTrailing q ds with
    | nil =>
      rw [hds] at h
      by_cases hqd : q d = true
      · rw [if_pos hqd] at h
        simp at h
      · rw [if_neg hqd] at h
        simpa using h
    | cons e es =>
      rw [hds] at h
      simpa using h

theorem getLast?_dropTrailing_false (q : Char → Bool) :
    ∀ (l : List Char) (c : Char), (dropTrailing q l).getLast? = some c → q c = false := by
  intro l
  induction l with
  | nil => intro c h; simp [dropTrailing] at h
  | cons d ds ih =>
    intro c h
    simp only [dropTrailing] at h
    cases hds : dropTrailing q ds with
    | nil =>
      rw [hds] at h
      by_cases hqd : q d = true
      · rw [if_pos hqd] at h
        simp at h
      · rw [if_neg hqd] at h
        simp only [List.getLast?_singleton, Option.some.injEq] at h
        rw [← h]
        simpa using hqd
    | cons e es =>
      rw [hds] at h
      rw [List.getLast?_cons_cons] at h
      apply ih c
      rw [hds]
      exact h

theorem noAdjacent_dropTrailing (p q : Char → Bool) :
    ∀ l, noAdjacent p l = true → noAdjacent p (dropTrailing q l) = true := by
  intro l
  induction l with
  | nil => intro h; exact h
  | cons d ds ih =>
    intro h
    simp only [dropTrailing]
    cases hds : dropTrailing q ds with
    | nil =>
      by_cases hqd : q d = true
      · rw [if_pos hqd]
        rfl
      · rw [if_neg hqd]
        rfl
    | cons e es =>
      have htail : noAdjacent p (e :: es) = true := by
        rw [← hds]
        exact ih (noAdjacent_tail p d ds h)
      cases ds with
      | nil => simp [dropTrailing] at hds
      | cons f fs =>
        have hfe : f = e := by
          have := head?_dropTrailing q (f :: fs) e (by rw [hds]; rfl)
          simpa using this
        subst hfe
        have hpair := noAdjacent_pair p d f fs h
        simp only [noAdjacent, Bool.and_eq_true] at htail ⊢
        refine ⟨?_, htail⟩
        by_cases hpd : p d = true
        · by_cases hpf : p f = true
          · exact absurd ⟨hpd, hpf⟩ hpair
          · simp [hpf]
        · simp [hpd]

theorem dropTrailing_eq_self (q : Char → Bool) :
    ∀ l, (∀ c, l.getLast? = some c → q c = false) → dropTrailing q l = l := by
  intro l
  induction l with
  | nil => intro _; rfl
  | cons d ds ih =>
    intro h
    simp only [dropTrailing]
    cases ds with
    | nil =>
      simp only [dropTrailing]
      rw [if_neg]
      simp only [Bool.not_eq_true]
      exact h d rfl
    | cons e es =>
      have hds : dropTrailing q (e :: es) = e :: es := by
        apply ih
        intro c hc
        apply h c
        rw [List.getLast?_cons_cons]
        exact hc
      rw [hds]

theorem matchAnyCI_none_of_amp (pats : List (List Char)) (c : Char) (cs : List Char)
    (hpats : ∀ p ∈ pats, ∃ ps, p = '&' :: ps) (hc : asciiLower c ≠ '&') :
    matchAnyCI pats (c :: cs) = none := by
  induction pats with
  | nil => rfl
  | cons p ps ih =>
    obtain ⟨ps', rfl⟩ := hpats p (by simp)
    simp only [matchAnyCI, stripCIPat]
    rw [if_neg hc]
    exact ih fun p hp => hpats p (by simp [hp])

theorem replaceCIAux_eq_self (pats : List (List Char)) (rep : List Char)
    (hpats : ∀ p ∈ pats, ∃ ps, p = '&' :: ps) :
    ∀ (fuel : Nat) (l : List Char),
      (∀ c ∈ l, isLowerAlnum c = true ∨ c = ' ') → replaceCIAux pats rep fuel l = l := by
  intro fuel
  induction fuel with
  | zero =>
    intro l _
    cases l with
    | nil => rfl
    | cons c cs => rfl
  | succ fuel ih =>
    intro l hl
    cases l with
    | nil => rfl
    | cons c cs =>
      have hc := not_amp_of_keyChar c (hl c (by simp))
      simp only [replaceCIAux, matchAnyCI_none_of_amp pats c cs hpats hc]
      rw [List.cons.injEq]
      exact ⟨rfl, ih cs fun d hd => hl d (by simp [hd])⟩

theorem replaceCI_eq_self (pats : List (List Char)) (rep : List Char)
    (hpats : ∀ p ∈ pats, ∃ ps, p = '&' :: ps) (l : List Char)
    (hl : ∀ c ∈ l, isLowerAlnum c = true ∨ c = ' ') : replaceCI pats rep l = l :=
  replaceCIAux_eq_self pats rep hpats l.length l hl

theorem decodeHtmlEntities_eq_self (l : List Char)
    (hl : ∀ c ∈ l, isLowerAlnum c = true ∨ c = ' ') : decodeHtmlEntities l = l := by
  have hgen : ∀ (pats : List (List Char)) (rep : List Char),
      (∀ p ∈ pats, ∃ ps, p = '&' :: ps) → replaceCI pats rep l = l := fun pats rep h =>
    replaceCI_eq_self pats rep h l hl
  simp only [decodeHtmlEntities]
  rw [hgen _ _ (by intro p hp; fin_cases hp; all_goals exact ⟨_, rfl⟩)]
  rw [hgen _ _ (by intro p hp; fin_cases hp; all_goals exact ⟨_, rfl⟩)]
  rw [hgen _ _ (by intro p hp; fin_cases hp; all_goals exact ⟨_, rfl⟩)]
  rw [hgen _ _ (by intro p hp; fin_cases hp; all_goals exact ⟨_, rfl⟩)]
  rw [hgen _ _ (by intro p hp; fin_cases hp; all_goals exact ⟨_, rfl⟩)]
  rw [hgen _ _ (by intro p hp; fin_cases hp; all_goals exact ⟨_, rfl⟩)]
  rw [hgen _ _ (by intro p hp; fin_cases hp; all_goals exact ⟨_, rfl⟩)]
  rw [hgen _ _ (by intro p hp; fin_cases hp; all_goals exact ⟨_, rfl⟩)]

theorem canonicalKey_iff (l : List Char) :
    canonicalKey l = true ↔
      ((∀ c ∈ l, isLowerAlnum c = true ∨ c = ' ') ∧
       noAdjacent (fun c => !isLowerAlnum c) l = true ∧
       (∀ c, l.head? = some c → isJsWhitespace c = false) ∧
       (∀ c, l.getLast? = some c → isJsWhitespace c = false)) := by
  simp only [canonicalKey, Bool.and_eq_true, List.all_eq_true, Bool.or_eq_true, beq_iff_eq]
  constructor
  · rintro ⟨⟨⟨h1, h2⟩, h3⟩, h4⟩
    refine ⟨fun c hc => h1 c hc, h2, ?_, ?_⟩
    · intro c hc
      rw [hc] at h3
      simpa using h3
    · intro c hc
      rw [hc] at h4
      simpa using h4
  · rintro ⟨h1, h2, h3, h4⟩
    refine ⟨⟨⟨fun c hc => h1 c hc, h2⟩, ?_⟩, ?_⟩
    · cases hh : l.head? with
      | none => rfl
      | some c => simpa using h3 c hh
    · cases hh : l.getLast? with
      | none => rfl
      | some c => simpa using h4 c hh

/-- `normalizeTitle` always outputs a string of canonical key shape,
whatever the Unicode primitives do. -/
theorem normalizeTitleL_canonical (lower nfkd : List Char → List Char) (s : List Char) :
    canonicalKey (normalizeTitleL lower nfkd s) = true := by
  rw [canonicalKey_iff]
  simp only [normalizeTitleL, trimChars]
  set X := (nfkd (lower (decodeHtmlEntities s))).filter (fun c => !isCombiningMark c) with hX
  set m1 := collapseRuns (fun c => !isLowerAlnum c) ' ' X with hm1
  have hm1chars : ∀ c ∈ m1, isLowerAlnum c = true ∨ c = ' ' := by
    intro c hc
    rcases mem_collapseRunsAux _ _ X false c hc with ⟨_, hp⟩ | rfl
    · left
      simpa using hp
    · right
      rfl
  have hm1adj : noAdjacent (fun c => !isLowerAlnum c) m1 = true :=
    noAdjacent_collapseRunsAux _ _ X false
  set m2 := m1.dropWhile isJsWhitespace with hm2
  set m3 := dropTrailing isJsWhitespace m2 with hm3
  have hm3chars : ∀ c ∈ m3, isLowerAlnum c = true ∨ c = ' ' := fun c hc =>
    hm1chars c (mem_dropWhile_sub _ m1 c (mem_dropTrailing_sub _ m2 c hc))
  have hm3adj : noAdjacent (fun c => !isLowerAlnum c) m3 = true :=
    noAdjacent_dropTrailing _ _ m2 (noAdjacent_dropWhile _ _ m1 hm1adj)
  have hm3head : ∀ c, m3.head? = some c → isJsWhitespace c = false := fun c hc =>
    head?_dropWhile_false _ m1 c (head?_dropTrailing _ m2 c hc)
  have hm3last : ∀ c, m3.getLast? = some c → isJsWhitespace c = false :=
    getLast?_dropTrailing_false _ m2
  have hfinal : collapseRuns isJsWhitespace ' ' m3 = m3 := by
    rw [collapseRuns]
    apply collapseRunsAux_eq_self
    · intro c hc hws
      rcases hm3chars c hc with h | rfl
      · exact absurd (ws_not_alnum c hws) (by simp [h])
      · rfl
    · refine noAdjacent_mono _ isJsWhitespace ?_ m3 hm3adj
      intro c h
      simpa using ws_not_alnum c h
    · simp
  rw [hfinal]
  exact ⟨hm3chars, hm3adj, hm3head, hm3last⟩

/-- Every pipeline stage fixes canonical-shape strings, so
`normalizeTitle` does. -/
theorem normalizeTitleL_eq_self (lower nfkd : List Char → List Char)
    (hl : ∀ l, canonicalKey l = true → lower l = l)
    (hn : ∀ l, canonicalKey l = true → nfkd l = l)
    (l : List Char) (hc : canonicalKey l = true) : normalizeTitleL lower nfkd l = l := by
  obtain ⟨h1, h2, h3, h4⟩ := (canonicalKey_iff l).mp hc
  have hrep1 : ∀ c ∈ l, (!isLowerAlnum c) = true → c = ' ' := by
    intro c hcl hp
    rcases h1 c hcl with h | h
    · rw [h] at hp
      simp at hp
    · exact h
  have hwsrep : ∀ c ∈ l, isJsWhitespace c = true → c = ' ' := by
    intro c hcl hws
    rcases h1 c hcl with h | h
    · exact absurd (ws_not_alnum c hws) (by simp [h])
    · exact h
  have hdw : l.dropWhile isJsWhitespace = l := by
    cases l with
    | nil => rfl
    | cons c cs =>
      rw [List.dropWhile_cons_of_neg]
      simp [h3 c rfl]
  simp only [normalizeTitleL, trimChars]
  rw [decodeHtmlEntities_eq_self l h1, hl l hc, hn l hc]
  rw [List.filter_eq_self.mpr (fun c hcl => by
    simp [combining_false_of_keyChar c (h1 c hcl)])]
  simp only [collapseRuns]
  rw [collapseRunsAux_eq_self _ _ l false hrep1 h2 (by simp)]
  rw [hdw, dropTrailing_eq_self _ l h4]
  apply collapseRunsAux_eq_self _ _ l false hwsrep
  · refine noAdjacent_mono _ isJsWhitespace ?_ l h2
    intro c h
    simpa using ws_not_alnum c h
  · simp

/-- C8 (claim theorem).  `normalizeTitle` is idempotent:
`normalize(normalize(t)) = normalize(t)` for every input string, given only
that the two Unicode-table primitives (`toLowerCase`, NFKD) fix strings
that are already in canonical key shape (all `[a-z0-9 ]`, single internal
spaces, trimmed) — which the real Unicode functions do, since such
characters are fixed points of lower-casing and NFKD-invariant. -/
theorem normalizeTitle_idempotent (lower nfkd : List Char → List Char)
    (hl : ∀ l, canonicalKey l = true → lower l = l)
    (hn : ∀ l, canonicalKey l = true → nfkd l = l) (t : String) :
    normalizeTitle lower nfkd (normalizeTitle lower nfkd t) = normalizeTitle lower nfkd t := by
  have hdata : ∀ X : List Char, (String.mk X).data = X := fun _ => rfl
  simp only [normalizeTitle]
  rw [hdata]
  rw [normalizeTitleL_eq_self lower nfkd hl hn (normalizeTitleL lower nfkd t.data)
    (normalizeTitleL_canonical lower nfkd t.data)]

/-- C8 witness: the theorem applied at a concrete title, with the identity
function (which trivially fixes canonical strings) instantiating the two
Unicode primitives. -/
theorem normalizeTitle_idempotent_witness :
    normalizeTitle id id (normalizeTitle id id " The &amp; Cafe!! ") =
      normalizeTitle id id " The &amp; Cafe!! " :=
  normalizeTitle_idempotent id id (fun _ _ => rfl) (fun _ _ => rfl) " The &amp; Cafe!! "
